import Mathlib

/-!
# SumiCore.h : the GLSL compatibility helpers `mod`, `hash` and `noise`

A shallow embedding of `Sources/Hayagaki/SumiCore.h`.

The header computes on Metal `float` scalars and on `float2` / `float3` vectors.
It is embedded twice, each function of the header keeping its name in both.

* In exact arithmetic (`SumiCore.mod`, `SumiCore.hash`, `SumiCore.noise`, ...): a scalar
  is an element of an arbitrary linearly ordered field `α` with a floor function.  At
  `α = ℚ` the definitions evaluate on concrete inputs, and at `α = ℝ` they are the
  functions whose continuity and differentiability are studied.  This embedding serves
  the statements that do not depend on rounding: the formulas the bodies unfold to, the
  component-wise overloads, the documented values, the lattice property, and the
  analysis of `noise` as a function on the real plane.
* In binary32 (`SumiCore.F32.mod`, `SumiCore.F32.hash`, `SumiCore.F32.noise`, ...): a
  scalar is NaN, an infinity or a finite rational, and every operation rounds its exact
  result to binary32, to nearest with ties to even, and overflows to an infinity.  This
  embedding serves the statements about the values the code returns: signs, bounds,
  periodicity, monotonicity, and the behaviour at a zero divisor and at overflow.

Every definition is computable.

The Metal standard library functions the header calls are embedded as follows:
* `floor` is the integer floor, cast back to a scalar;
* `fract x` is `x - floor x`; in binary32 the rounded difference is capped at the
  largest value below one, `0x1.fffffep-1`, Metal specifying a result less than one;
* `mix a b t` is `a + t * (b - a)`;
* `dot` is the inner product;
* `sin` is a parameter of `hash` and `noise`: an arbitrary function on scalars; in
  binary32 its value at a finite argument is rounded and its value at NaN and at the
  infinities is NaN.
-/

namespace SumiCore

/-! ## Types -/

/-- The type `vec2` (`typedef float2 vec2`): two scalar components. -/
structure vec2 (α : Type*) where
  x : α
  y : α
  deriving DecidableEq

/-- The type `vec3` (`typedef float3 vec3`): three scalar components. -/
structure vec3 (α : Type*) where
  x : α
  y : α
  z : α
  deriving DecidableEq

section Defs

variable {α : Type*} [LinearOrderedField α] [FloorRing α]

/-! ## Metal standard library: scalar functions -/

/-- Metal `floor(float)`: the largest integer not above `x`, as a scalar. -/
def floor (x : α) : α := ((⌊x⌋ : ℤ) : α)

/-- Metal `fract(float)`: the fractional part `x - floor(x)`. -/
def fract (x : α) : α := x - floor x

/-- Metal `mix(a, b, t)`: the linear blend `a + t * (b - a)`. -/
def mix (a b t : α) : α := a + t * (b - a)

/-! ## Metal vector arithmetic: component-wise, a scalar operand is broadcast -/

instance : Add (vec2 α) := ⟨fun a b => ⟨a.x + b.x, a.y + b.y⟩⟩
instance : Sub (vec2 α) := ⟨fun a b => ⟨a.x - b.x, a.y - b.y⟩⟩
instance : Mul (vec2 α) := ⟨fun a b => ⟨a.x * b.x, a.y * b.y⟩⟩
instance : HMul α (vec2 α) (vec2 α) := ⟨fun s a => ⟨s * a.x, s * a.y⟩⟩
instance : HDiv (vec2 α) α (vec2 α) := ⟨fun a s => ⟨a.x / s, a.y / s⟩⟩
instance : HSub α (vec2 α) (vec2 α) := ⟨fun s a => ⟨s - a.x, s - a.y⟩⟩

instance : Sub (vec3 α) := ⟨fun a b => ⟨a.x - b.x, a.y - b.y, a.z - b.z⟩⟩
instance : HMul α (vec3 α) (vec3 α) := ⟨fun s a => ⟨s * a.x, s * a.y, s * a.z⟩⟩
instance : HDiv (vec3 α) α (vec3 α) := ⟨fun a s => ⟨a.x / s, a.y / s, a.z / s⟩⟩

/-- Metal `floor(float2)`: `floor` of each component. -/
def vec2.floor (p : vec2 α) : vec2 α := ⟨SumiCore.floor p.x, SumiCore.floor p.y⟩

/-- Metal `fract(float2)`: `fract` of each component. -/
def vec2.fract (p : vec2 α) : vec2 α := ⟨SumiCore.fract p.x, SumiCore.fract p.y⟩

/-- Metal `floor(float3)`: `floor` of each component. -/
def vec3.floor (p : vec3 α) : vec3 α :=
  ⟨SumiCore.floor p.x, SumiCore.floor p.y, SumiCore.floor p.z⟩

/-- Metal `dot(float2, float2)`: the inner product. -/
def dot (a b : vec2 α) : α := a.x * b.x + a.y * b.y

/-! ## The header -/

/-- The constant `#define PI 3.14159265359`. -/
def PI : α := 3.14159265359

/-- The scalar overload
`inline float mod(float x, float y) { return x - y * floor(x/y); }`. -/
def mod (x y : α) : α := x - y * floor (x / y)

/-- The overload `inline vec2 mod(vec2 x, float y) { return x - y * floor(x/y); }`. -/
def vec2.mod (x : vec2 α) (y : α) : vec2 α := x - y * vec2.floor (x / y)

/-- The overload `inline vec3 mod(vec3 x, float y) { return x - y * floor(x/y); }`. -/
def vec3.mod (x : vec3 α) (y : α) : vec3 α := x - y * vec3.floor (x / y)

/-- The function `hash`:
`return fract(sin(dot(p, vec2(12.9898, 78.233))) * 43758.5453);`
with the library sine as the parameter `sin`. -/
def hash (sin : α → α) (p : vec2 α) : α :=
  fract (sin (dot p (⟨12.9898, 78.233⟩ : vec2 α)) * 43758.5453)

/-- The function `noise`: smoothstep weights `u` from the fractional part of `p`,
then the bilinear blend of `hash` at the four corners of the cell of `p`. -/
def noise (sin : α → α) (p : vec2 α) : α :=
  let i : vec2 α := vec2.floor p
  let f : vec2 α := vec2.fract p
  let u : vec2 α := f * f * ((3.0 : α) - (2.0 : α) * f)
  mix (mix (hash sin (i + (⟨0.0, 0.0⟩ : vec2 α))) (hash sin (i + (⟨1.0, 0.0⟩ : vec2 α))) u.x)
      (mix (hash sin (i + (⟨0.0, 1.0⟩ : vec2 α))) (hash sin (i + (⟨1.0, 1.0⟩ : vec2 α))) u.x) u.y

/-- The interpolation weight of `noise` on one component: the expression
`f * f * (3.0 - 2.0 * f)` of the source, `u(f) = f*f*(3 - 2f)`. -/
def smoothstep_weight (f : α) : α := f * f * ((3.0 : α) - (2.0 : α) * f)

/-! ## Specification-side definitions -/

/-- The floored modulo as the specification words it: `x - y * floor(x / y)`,
with `floor` the mathematical integer floor. -/
def mod_spec (x y : α) : α := x - y * ((Int.floor (x / y) : ℤ) : α)

/-- The weight `smoothstep_weight` of the argument clamped to `[0, 1]`. -/
def clamped_weight (t : α) : α := smoothstep_weight (max 0 (min 1 t))

/-- One interpolation step of `noise` along one axis: the blend of the lattice values
`c ⌊x⌋` and `c (⌊x⌋ + 1)` with the weight of the fractional part of `x`. -/
def interp (c : ℤ → α) (x : α) : α :=
  mix (c ⌊x⌋) (c (⌊x⌋ + 1)) (smoothstep_weight (fract x))

/-- The expression that `interp c` equals on the open interval `(k - 1, k + 1)`. -/
def interp_patch (c : ℤ → α) (k : ℤ) (x : α) : α :=
  c (k - 1) + clamped_weight (x - ((k : α) - 1)) * (c k - c (k - 1))
    + clamped_weight (x - (k : α)) * (c (k + 1) - c k)

end Defs

/-! ## Binary32 arithmetic

The header computes in Metal `float`, the IEEE 754 binary32 format.  The definitions
below embed it: a value is NaN, an infinity, or a finite rational; every arithmetic
operation computes the exact rational result and rounds it to binary32 precision, to
nearest with ties to even, overflowing to an infinity.  The sign of zero is not
tracked: the only operation whose value depends on it is a division by zero, which is
given the sign of the dividend, and no value computed by the header changes with the
sign of that infinity. -/

/-- Rounding of a rational to the nearest integer, ties to the even integer. -/
def rhe (t : ℚ) : ℤ :=
  if t - ⌊t⌋ < 1 / 2 then ⌊t⌋
  else if 1 / 2 < t - ⌊t⌋ then ⌊t⌋ + 1
  else if ⌊t⌋ % 2 = 0 then ⌊t⌋ else ⌊t⌋ + 1

/-- Binary exponent of the binade of `q`, not below the least normal exponent `-126`. -/
def expo (q : ℚ) : ℤ := if q = 0 then -126 else max (Int.log 2 |q|) (-126)

/-- Rounding of a rational to binary32 precision (24 significant bits, gradual
underflow), to nearest with ties to even; the exponent is not bounded above. -/
def rnd (q : ℚ) : ℚ := rhe (q / 2 ^ (expo q - 23)) * 2 ^ (expo q - 23)

/-- A binary32 value: NaN, plus or minus infinity, or a finite value. -/
inductive F32 where
  | nan : F32
  | pinf : F32
  | ninf : F32
  | fin (q : ℚ) : F32
  deriving DecidableEq

namespace F32

/-- The binary32 result of an operation whose exact result is `q`: `q` rounded, or an
infinity when the rounded value exceeds the largest finite binary32 value. -/
def ofRat (q : ℚ) : F32 :=
  if 2 ^ 128 ≤ rnd q then pinf else if rnd q ≤ -2 ^ 128 then ninf else fin (rnd q)

/-- A floating-point literal of the source: the decimal rounded to binary32. -/
def lit (q : ℚ) : F32 := ofRat q

/-- The finite binary32 values, as opposed to NaN and the infinities. -/
def IsFinite : F32 → Prop
  | fin _ => True
  | _ => False

/-- Binary32 addition. -/
def add : F32 → F32 → F32
  | nan, _ => nan
  | _, nan => nan
  | pinf, ninf => nan
  | ninf, pinf => nan
  | pinf, _ => pinf
  | ninf, _ => ninf
  | fin _, pinf => pinf
  | fin _, ninf => ninf
  | fin a, fin b => ofRat (a + b)

/-- Binary32 subtraction. -/
def sub : F32 → F32 → F32
  | nan, _ => nan
  | _, nan => nan
  | pinf, pinf => nan
  | ninf, ninf => nan
  | pinf, _ => pinf
  | ninf, _ => ninf
  | fin _, pinf => ninf
  | fin _, ninf => pinf
  | fin a, fin b => ofRat (a - b)

/-- Binary32 multiplication; zero times an infinity is NaN. -/
def mul : F32 → F32 → F32
  | nan, _ => nan
  | _, nan => nan
  | pinf, pinf => pinf
  | pinf, ninf => ninf
  | ninf, pinf => ninf
  | ninf, ninf => pinf
  | pinf, fin b => if b = 0 then nan else if 0 < b then pinf else ninf
  | ninf, fin b => if b = 0 then nan else if 0 < b then ninf else pinf
  | fin a, pinf => if a = 0 then nan else if 0 < a then pinf else ninf
  | fin a, ninf => if a = 0 then nan else if 0 < a then ninf else pinf
  | fin a, fin b => ofRat (a * b)

/-- Binary32 division; a nonzero finite value divided by zero is an infinity, zero
divided by zero and an infinity divided by an infinity are NaN. -/
def div : F32 → F32 → F32
  | nan, _ => nan
  | _, nan => nan
  | pinf, pinf => nan
  | pinf, ninf => nan
  | ninf, pinf => nan
  | ninf, ninf => nan
  | pinf, fin b => if 0 ≤ b then pinf else ninf
  | ninf, fin b => if 0 ≤ b then ninf else pinf
  | fin _, pinf => fin 0
  | fin _, ninf => fin 0
  | fin a, fin b =>
    if b = 0 then (if a = 0 then nan else if 0 < a then pinf else ninf) else ofRat (a / b)

instance : Add F32 := ⟨add⟩
instance : Sub F32 := ⟨sub⟩
instance : Mul F32 := ⟨mul⟩
instance : Div F32 := ⟨div⟩

/-- Metal `floor(float)`: the largest integer not above a finite value, itself a
binary32 value; NaN and the infinities are returned unchanged. -/
def floor : F32 → F32
  | fin q => fin ⌊q⌋
  | x => x

/-- Truncation of a rational toward zero, as an integer. -/
def itrunc (q : ℚ) : ℤ := if 0 ≤ q then ⌊q⌋ else ⌈q⌉

/-- Metal `trunc(float)`: rounding toward zero. -/
def trunc : F32 → F32
  | fin q => fin (itrunc q)
  | x => x

/-- The upper cap of Metal `fract`: a value is capped at the largest binary32 value
below one, `0x1.fffffep-1 = 1 - 2^-24`; NaN is kept. -/
def clamp_below_one : F32 → F32
  | fin r => fin (min r (1 - 1 / 2 ^ 24))
  | pinf => fin (1 - 1 / 2 ^ 24)
  | x => x

/-- Metal `fract(float)`: the fractional part `x - floor(x)`, computed in binary32 and
kept below one by the cap `min(x - floor(x), 0x1.fffffep-1)`; where the difference is
NaN (at NaN and at the infinities) the result is NaN. -/
def fract (x : F32) : F32 := clamp_below_one (x - floor x)

/-- Metal `sin(float)`: NaN at NaN and at the infinities; at a finite value the
library sine, whose real-valued result `s q` is a parameter, rounded to binary32. -/
def sin (s : ℚ → ℚ) : F32 → F32
  | fin q => ofRat (s q)
  | _ => nan

/-- Metal `mix(x, y, a)`: the linear blend `x + (y - x) * a`. -/
def mix (a b t : F32) : F32 := a + (b - a) * t

/-- Metal `dot(float2, float2)`: the inner product. -/
def dot (a b : vec2 F32) : F32 := a.x * b.x + a.y * b.y

instance : Add (vec2 F32) := ⟨fun a b => ⟨a.x + b.x, a.y + b.y⟩⟩
instance : Mul (vec2 F32) := ⟨fun a b => ⟨a.x * b.x, a.y * b.y⟩⟩
instance : HMul F32 (vec2 F32) (vec2 F32) := ⟨fun s a => ⟨s * a.x, s * a.y⟩⟩
instance : HSub F32 (vec2 F32) (vec2 F32) := ⟨fun s a => ⟨s - a.x, s - a.y⟩⟩

/-- Metal `floor(float2)`: `floor` of each component. -/
def vfloor (p : vec2 F32) : vec2 F32 := ⟨floor p.x, floor p.y⟩

/-- Metal `fract(float2)`: `fract` of each component. -/
def vfract (p : vec2 F32) : vec2 F32 := ⟨fract p.x, fract p.y⟩

/-- The scalar overload
`inline float mod(float x, float y) { return x - y * floor(x/y); }` in binary32. -/
def mod (x y : F32) : F32 := x - y * floor (x / y)

/-- The truncated remainder of the other dialect convention, `x - y * trunc(x/y)`, in
binary32. -/
def trunc_rem (x y : F32) : F32 := x - y * trunc (x / y)

/-- The function `hash` in binary32:
`return fract(sin(dot(p, vec2(12.9898, 78.233))) * 43758.5453);`. -/
def hash (s : ℚ → ℚ) (p : vec2 F32) : F32 :=
  fract (sin s (dot p (⟨lit 12.9898, lit 78.233⟩ : vec2 F32)) * lit 43758.5453)

/-- The interpolation weight of `noise` on one component in binary32: the expression
`f * f * (3.0 - 2.0 * f)` of the source. -/
def smoothstep_weight (f : F32) : F32 := f * f * (lit 3.0 - lit 2.0 * f)

/-- The function `noise` in binary32. -/
def noise (s : ℚ → ℚ) (p : vec2 F32) : F32 :=
  let i : vec2 F32 := vfloor p
  let f : vec2 F32 := vfract p
  let u : vec2 F32 := f * f * (lit 3.0 - lit 2.0 * f)
  mix (mix (hash s (i + (⟨lit 0.0, lit 0.0⟩ : vec2 F32)))
           (hash s (i + (⟨lit 1.0, lit 0.0⟩ : vec2 F32))) u.x)
      (mix (hash s (i + (⟨lit 0.0, lit 1.0⟩ : vec2 F32)))
           (hash s (i + (⟨lit 1.0, lit 1.0⟩ : vec2 F32))) u.x) u.y

/-- The evaluation of `mod(x, y)` at finite `x`, `y` in which the quotient does not
overflow, the rounding of the quotient does not change its floor, and the product
`y * floor(x/y)` is exact and does not overflow. -/
def mod_steps_exact (x y : ℚ) : Prop :=
  |rnd (x / y)| < 2 ^ 128 ∧ ⌊rnd (x / y)⌋ = ⌊x / y⌋ ∧
    rnd (y * ⌊x / y⌋) = y * ⌊x / y⌋ ∧ |y * ⌊x / y⌋| < 2 ^ 128

/-- The evaluation of the truncated remainder at finite `x`, `y` in which the quotient
does not overflow, the rounding of the quotient does not change its truncation, and the
product `y * trunc(x/y)` is exact and does not overflow. -/
def trunc_steps_exact (x y : ℚ) : Prop :=
  |rnd (x / y)| < 2 ^ 128 ∧ itrunc (rnd (x / y)) = itrunc (x / y) ∧
    rnd (y * itrunc (x / y)) = y * itrunc (x / y) ∧ |y * itrunc (x / y)| < 2 ^ 128

end F32


/-! ## Basic facts about the blend and the weights -/

section Blend

variable {α : Type*} [LinearOrderedField α]

lemma mix_zero (a b : α) : mix a b 0 = a := by
  simp [mix]

lemma clamped_weight_of_nonpos {t : α} (h : t ≤ 0) : clamped_weight t = 0 := by
  have hc : max 0 (min 1 t) = 0 := max_eq_left ((min_le_right 1 t).trans h)
  simp [clamped_weight, hc, smoothstep_weight]

lemma clamped_weight_of_mem {t : α} (h0 : 0 ≤ t) (h1 : t ≤ 1) :
    clamped_weight t = smoothstep_weight t := by
  have hc : max 0 (min 1 t) = t := by rw [min_eq_right h1, max_eq_right h0]
  simp [clamped_weight, hc]

lemma clamped_weight_of_one_le {t : α} (h : 1 ≤ t) : clamped_weight t = 1 := by
  have hc : max 0 (min 1 t) = 1 := by rw [min_eq_left h, max_eq_right zero_le_one]
  simp only [clamped_weight, hc, smoothstep_weight]; norm_num

end Blend

/-! ## Basic facts about `floor` and `fract` -/

section Lemmas

variable {α : Type*} [LinearOrderedField α] [FloorRing α]

lemma floor_le_self (x : α) : floor x ≤ x := Int.floor_le x

lemma self_lt_floor_add_one (x : α) : x < floor x + 1 := Int.lt_floor_add_one x

lemma floor_intCast (n : ℤ) : floor (n : α) = n := by
  simp [floor]

lemma fract_nonneg (x : α) : 0 ≤ fract x := by
  have := floor_le_self x
  simp only [fract]; linarith

lemma fract_lt_one (x : α) : fract x < 1 := by
  have := self_lt_floor_add_one x
  simp only [fract]; linarith

end Lemmas

/-! ## The floored modulo -/

section Mod

variable {α : Type*} [LinearOrderedField α] [FloorRing α]

/-- C2: the documented values of the scalar `mod`: `mod(-1.0, 4.0) = 3.0`,
`mod(5.0, 3.0) = 2.0` and `mod(3.0, 3.0) = 0.0`. -/
theorem mod_documented_values :
    mod (-1.0 : α) 4.0 = 3.0 ∧ mod (5.0 : α) 3.0 = 2.0 ∧ mod (3.0 : α) 3.0 = 0.0 := by
  have h1 : (⌊(-1.0 : α) / 4.0⌋ : ℤ) = -1 := by
    rw [Int.floor_eq_iff]; constructor <;> norm_num
  have h2 : (⌊(5.0 : α) / 3.0⌋ : ℤ) = 1 := by
    rw [Int.floor_eq_iff]; constructor <;> norm_num
  have h3 : (⌊(3.0 : α) / 3.0⌋ : ℤ) = 1 := by
    rw [Int.floor_eq_iff]; constructor <;> norm_num
  refine ⟨?_, ?_, ?_⟩
  · simp only [mod, floor, h1]; norm_num
  · simp only [mod, floor, h2]; norm_num
  · simp only [mod, floor, h3]; norm_num

/-- C3: each component of the `vec2` and of the `vec3` overload of `mod` is the scalar
`mod` of the corresponding component of `x` with the same `y`; in particular
`mod((5.0, -1.0), 4.0) = (1.0, 3.0)`. -/
theorem mod_vector_componentwise :
    (∀ (x : vec2 α) (y : α),
        (vec2.mod x y).x = mod x.x y ∧ (vec2.mod x y).y = mod x.y y) ∧
    (∀ (x : vec3 α) (y : α),
        (vec3.mod x y).x = mod x.x y ∧ (vec3.mod x y).y = mod x.y y ∧
          (vec3.mod x y).z = mod x.z y) ∧
    vec2.mod (⟨5.0, -1.0⟩ : vec2 α) 4.0 = ⟨1.0, 3.0⟩ := by
  have h1 : (⌊(5.0 : α) / 4.0⌋ : ℤ) = 1 := by
    rw [Int.floor_eq_iff]; constructor <;> norm_num
  have h2 : (⌊(-1.0 : α) / 4.0⌋ : ℤ) = -1 := by
    rw [Int.floor_eq_iff]; constructor <;> norm_num
  refine ⟨fun x y => ⟨rfl, rfl⟩, fun x y => ⟨rfl, rfl, rfl⟩, ?_⟩
  have hx : mod (5.0 : α) 4.0 = 1.0 := by
    simp only [mod, floor, h1]; norm_num
  have hy : mod (-1.0 : α) 4.0 = 3.0 := by
    simp only [mod, floor, h2]; norm_num
  show (⟨mod (5.0 : α) 4.0, mod (-1.0 : α) 4.0⟩ : vec2 α) = ⟨1.0, 3.0⟩
  rw [hx, hy]

/-- C10: for all scalars `x` and `y`, the scalar `mod x y` of the header equals
`x - y * floor(x / y)` as the specification defines it. -/
theorem mod_eq_mod_spec (x y : α) : mod x y = mod_spec x y := rfl

end Mod

/-! ## The hash and the value noise: algebraic properties -/

section Noise

variable {α : Type*} [LinearOrderedField α] [FloorRing α]

/-- The body of `noise` written out on scalars. -/
lemma noise_eq (sin : α → α) (p : vec2 α) :
    noise sin p =
      mix (mix (hash sin ⟨floor p.x + 0.0, floor p.y + 0.0⟩)
               (hash sin ⟨floor p.x + 1.0, floor p.y + 0.0⟩) (smoothstep_weight (fract p.x)))
          (mix (hash sin ⟨floor p.x + 0.0, floor p.y + 1.0⟩)
               (hash sin ⟨floor p.x + 1.0, floor p.y + 1.0⟩) (smoothstep_weight (fract p.x)))
          (smoothstep_weight (fract p.y)) := rfl

/-- C5: at an integer-valued vector `i` (one with `floor i = i`), `noise i` equals
`hash i` exactly. -/
theorem noise_lattice (sin : α → α) (i : vec2 α) (hi : vec2.floor i = i) :
    noise sin i = hash sin i := by
  have hx : floor i.x = i.x := congrArg vec2.x hi
  have hy : floor i.y = i.y := congrArg vec2.y hi
  have hfx : fract i.x = 0 := by simp only [fract, hx, sub_self]
  have hfy : fract i.y = 0 := by simp only [fract, hy, sub_self]
  have hw : smoothstep_weight (0 : α) = 0 := by simp [smoothstep_weight]
  have h0 : (0.0 : α) = 0 := by norm_num
  rw [noise_eq, hfx, hfy, hw, mix_zero, mix_zero, hx, hy, h0, add_zero, add_zero]

/-- Witness of C5 at `i = (2.0, 3.0)` over the rationals, with the identity in the
place of the sine: `noise((2.0, 3.0)) = hash((2.0, 3.0))`. -/
theorem noise_lattice_witness :
    vec2.floor (⟨2.0, 3.0⟩ : vec2 ℚ) = ⟨2.0, 3.0⟩ ∧
      noise (fun t : ℚ => t) ⟨2.0, 3.0⟩ = hash (fun t : ℚ => t) ⟨2.0, 3.0⟩ :=
  ⟨by norm_num [vec2.floor, floor],
   noise_lattice (fun t : ℚ => t) ⟨2.0, 3.0⟩ (by norm_num [vec2.floor, floor])⟩

end Noise

/-! ## The value noise: continuity and differentiability -/

section Interp

variable {α : Type*} [LinearOrderedField α] [FloorRing α]

/-- The body of `noise` is two nested interpolation steps over the lattice of hashes. -/
lemma noise_eq_interp (sin : α → α) (x y : α) :
    noise sin ⟨x, y⟩ =
      interp (fun j : ℤ => interp (fun i : ℤ => hash sin ⟨(i : α), (j : α)⟩) x) y := by
  have h0 : (0.0 : α) = 0 := by norm_num
  have h1 : (1.0 : α) = 1 := by norm_num
  rw [noise_eq]
  simp only [interp, floor, h0, h1, add_zero, Int.cast_add, Int.cast_one]

/-- On the open interval `(k - 1, k + 1)` an interpolation step is `interp_patch`. -/
lemma interp_eq_patch (c : ℤ → α) (k : ℤ) (x : α) (h1 : (k : α) - 1 < x)
    (h2 : x < (k : α) + 1) : interp c x = interp_patch c k x := by
  rcases lt_or_le x (k : α) with h | h
  · have hfl : ⌊x⌋ = k - 1 := by
      rw [Int.floor_eq_iff]; push_cast; constructor <;> linarith
    have hfr : fract x = x - ((k : α) - 1) := by
      simp only [fract, floor, hfl]; push_cast; ring
    have hw1 : clamped_weight (x - ((k : α) - 1)) = smoothstep_weight (x - ((k : α) - 1)) :=
      clamped_weight_of_mem (by linarith) (by linarith)
    have hw2 : clamped_weight (x - (k : α)) = 0 := clamped_weight_of_nonpos (by linarith)
    simp only [interp, interp_patch, hfl, hfr, hw1, hw2, sub_add_cancel, mix]
    ring
  · have hfl : ⌊x⌋ = k := by
      rw [Int.floor_eq_iff]; constructor <;> linarith
    have hfr : fract x = x - (k : α) := by
      simp only [fract, floor, hfl]
    have hw1 : clamped_weight (x - ((k : α) - 1)) = 1 :=
      clamped_weight_of_one_le (by linarith)
    have hw2 : clamped_weight (x - (k : α)) = smoothstep_weight (x - (k : α)) :=
      clamped_weight_of_mem (by linarith) (by linarith)
    simp only [interp, interp_patch, hfl, hfr, hw1, hw2, mix]
    ring

/-- Around the cell corner `(m, n)`, on the open square `(m-1, m+1) × (n-1, n+1)`,
`noise` is two nested patches. -/
lemma noise_eq_patch (sin : α → α) (m n : ℤ) (x y : α)
    (hx1 : (m : α) - 1 < x) (hx2 : x < (m : α) + 1)
    (hy1 : (n : α) - 1 < y) (hy2 : y < (n : α) + 1) :
    noise sin ⟨x, y⟩ =
      interp_patch
        (fun j : ℤ => interp_patch (fun i : ℤ => hash sin ⟨(i : α), (j : α)⟩) m x) n y := by
  rw [noise_eq_interp, interp_eq_patch _ n y hy1 hy2]
  simp only [interp_patch, interp_eq_patch _ m x hx1 hx2]

end Interp

section Analysis

open Set Filter Topology

lemma hasDerivAt_smoothstep_weight (t : ℝ) :
    HasDerivAt (smoothstep_weight : ℝ → ℝ) (6 * t * (1 - t)) t := by
  have h : HasDerivAt (fun f : ℝ => f * f * (3 - 2 * f))
      ((1 * t + t * 1) * (3 - 2 * t) + t * t * (0 - 2 * 1)) t :=
    ((hasDerivAt_id t).mul (hasDerivAt_id t)).mul
      ((hasDerivAt_const t (3 : ℝ)).sub ((hasDerivAt_id t).const_mul 2))
  have e : (smoothstep_weight : ℝ → ℝ) = fun f : ℝ => f * f * (3 - 2 * f) := by
    funext f; simp only [smoothstep_weight]; norm_num
  rw [e]
  exact h.congr_deriv (by ring)

/-- The clamped weight has the derivative `6 c (1 - c)` with `c` the clamped argument:
the three pieces `(-∞, 0]`, `[0, 1]`, `[1, ∞)` have matching one-sided derivatives. -/
lemma hasDerivAt_clamped_weight (t : ℝ) :
    HasDerivAt (clamped_weight : ℝ → ℝ)
      (6 * max 0 (min 1 t) * (1 - max 0 (min 1 t))) t := by
  set d : ℝ := 6 * max 0 (min 1 t) * (1 - max 0 (min 1 t)) with hd
  have hA : HasDerivWithinAt (clamped_weight : ℝ → ℝ) d (Iic 0) t := by
    by_cases ht : t ∈ Iic (0 : ℝ)
    · have hd0 : d = 0 := by
        have hc : max 0 (min 1 t) = 0 := max_eq_left ((min_le_right 1 t).trans ht)
        simp [hd, hc]
      rw [hd0]
      exact (hasDerivWithinAt_const t (Iic (0 : ℝ)) (0 : ℝ)).congr
        (fun x hx => clamped_weight_of_nonpos hx) (clamped_weight_of_nonpos ht)
    · exact hasFDerivWithinAt_of_nmem_closure (by rwa [closure_Iic])
  have hB : HasDerivWithinAt (clamped_weight : ℝ → ℝ) d (Icc 0 1) t := by
    by_cases ht : t ∈ Icc (0 : ℝ) 1
    · have hd0 : d = 6 * t * (1 - t) := by
        have hc : max 0 (min 1 t) = t := by rw [min_eq_right ht.2, max_eq_right ht.1]
        simp [hd, hc]
      rw [hd0]
      exact (hasDerivAt_smoothstep_weight t).hasDerivWithinAt.congr
        (fun x hx => clamped_weight_of_mem hx.1 hx.2) (clamped_weight_of_mem ht.1 ht.2)
    · exact hasFDerivWithinAt_of_nmem_closure (by rwa [closure_Icc])
  have hC : HasDerivWithinAt (clamped_weight : ℝ → ℝ) d (Ici 1) t := by
    by_cases ht : t ∈ Ici (1 : ℝ)
    · have hd0 : d = 0 := by
        have hc : max 0 (min 1 t) = 1 := by rw [min_eq_left ht, max_eq_right zero_le_one]
        simp [hd, hc]
      rw [hd0]
      exact (hasDerivWithinAt_const t (Ici (1 : ℝ)) (1 : ℝ)).congr
        (fun x hx => clamped_weight_of_one_le hx) (clamped_weight_of_one_le ht)
    · exact hasFDerivWithinAt_of_nmem_closure (by rwa [closure_Ici])
  have hU : Iic (0 : ℝ) ∪ Icc 0 1 ∪ Ici 1 = univ := by
    ext x
    simp only [mem_union, mem_Iic, mem_Icc, mem_Ici, mem_univ, iff_true]
    rcases le_total x 0 with h | h
    · exact Or.inl (Or.inl h)
    · rcases le_total x 1 with h1 | h1
      · exact Or.inl (Or.inr ⟨h, h1⟩)
      · exact Or.inr h1
  have hall := (hA.union hB).union hC
  rwa [hU, hasDerivWithinAt_univ] at hall

lemma contDiff_clamped_weight : ContDiff ℝ 1 (clamped_weight : ℝ → ℝ) := by
  rw [contDiff_one_iff_deriv]
  refine ⟨fun t => (hasDerivAt_clamped_weight t).differentiableAt, ?_⟩
  have hderiv : deriv (clamped_weight : ℝ → ℝ) =
      fun t => 6 * max 0 (min 1 t) * (1 - max 0 (min 1 t)) :=
    funext fun t => (hasDerivAt_clamped_weight t).deriv
  rw [hderiv]
  have hc : Continuous (fun t : ℝ => max 0 (min 1 t)) :=
    continuous_const.max (continuous_const.min continuous_id)
  exact (continuous_const.mul hc).mul (continuous_const.sub hc)

/-- A patch along a continuously differentiable coordinate `g`, between continuously
differentiable lattice values, is continuously differentiable. -/
lemma contDiff_interp_patch {c : ℤ → ℝ × ℝ → ℝ} (hc : ∀ i, ContDiff ℝ 1 (c i))
    {g : ℝ × ℝ → ℝ} (hg : ContDiff ℝ 1 g) (k : ℤ) :
    ContDiff ℝ 1 (fun q : ℝ × ℝ => interp_patch (fun i => c i q) k (g q)) := by
  have hw : ∀ r : ℝ, ContDiff ℝ 1 (fun q : ℝ × ℝ => clamped_weight (g q - r)) :=
    fun r => contDiff_clamped_weight.comp (hg.sub contDiff_const)
  simp only [interp_patch]
  exact ((hc (k - 1)).add ((hw _).mul ((hc k).sub (hc (k - 1))))).add
    ((hw _).mul ((hc (k + 1)).sub (hc k)))

/-- The value noise is continuously differentiable on the whole plane, whatever the
function in the place of the sine. -/
lemma contDiff_noise (sin : ℝ → ℝ) :
    ContDiff ℝ 1 (fun q : ℝ × ℝ => noise sin ⟨q.1, q.2⟩) := by
  rw [contDiff_iff_contDiffAt]
  intro p
  have hpatch : ContDiff ℝ 1 (fun q : ℝ × ℝ =>
      interp_patch (fun j : ℤ =>
        interp_patch (fun i : ℤ => hash sin ⟨(i : ℝ), (j : ℝ)⟩) ⌊p.1⌋ q.1) ⌊p.2⌋ q.2) :=
    contDiff_interp_patch
      (fun j => contDiff_interp_patch (fun i => contDiff_const) contDiff_fst ⌊p.1⌋)
      contDiff_snd ⌊p.2⌋
  refine hpatch.contDiffAt.congr_of_eventuallyEq ?_
  have h1 : {q : ℝ × ℝ | ((⌊p.1⌋ : ℤ) : ℝ) - 1 < q.1} ∈ 𝓝 p :=
    (isOpen_lt continuous_const continuous_fst).mem_nhds
      (by have := Int.floor_le p.1; simp only [mem_setOf_eq]; linarith)
  have h2 : {q : ℝ × ℝ | q.1 < ((⌊p.1⌋ : ℤ) : ℝ) + 1} ∈ 𝓝 p :=
    (isOpen_lt continuous_fst continuous_const).mem_nhds (Int.lt_floor_add_one p.1)
  have h3 : {q : ℝ × ℝ | ((⌊p.2⌋ : ℤ) : ℝ) - 1 < q.2} ∈ 𝓝 p :=
    (isOpen_lt continuous_const continuous_snd).mem_nhds
      (by have := Int.floor_le p.2; simp only [mem_setOf_eq]; linarith)
  have h4 : {q : ℝ × ℝ | q.2 < ((⌊p.2⌋ : ℤ) : ℝ) + 1} ∈ 𝓝 p :=
    (isOpen_lt continuous_snd continuous_const).mem_nhds (Int.lt_floor_add_one p.2)
  filter_upwards [h1, h2, h3, h4] with q hq1 hq2 hq3 hq4
  exact noise_eq_patch sin ⌊p.1⌋ ⌊p.2⌋ q.1 q.2 hq1 hq2 hq3 hq4

/-- The partial derivative along the first coordinate of a continuously differentiable
function on the plane is its derivative applied to `(1, 0)`. -/
lemma hasDerivAt_partial_fst {F : ℝ × ℝ → ℝ} (hF : ContDiff ℝ 1 F) (x y : ℝ) :
    HasDerivAt (fun t : ℝ => F (t, y)) (fderiv ℝ F (x, y) (1, 0)) x := by
  have hl : HasFDerivAt F (fderiv ℝ F (x, y)) (x, y) :=
    (hF.differentiable le_rfl (x, y)).hasFDerivAt
  have hg : HasDerivAt (fun t : ℝ => (t, y)) ((1 : ℝ), (0 : ℝ)) x :=
    (hasDerivAt_id x).prod (hasDerivAt_const x y)
  exact hl.comp_hasDerivAt x hg

/-- The partial derivative along the second coordinate of a continuously differentiable
function on the plane is its derivative applied to `(0, 1)`. -/
lemma hasDerivAt_partial_snd {F : ℝ × ℝ → ℝ} (hF : ContDiff ℝ 1 F) (x y : ℝ) :
    HasDerivAt (fun t : ℝ => F (x, t)) (fderiv ℝ F (x, y) (0, 1)) y := by
  have hl : HasFDerivAt F (fderiv ℝ F (x, y)) (x, y) :=
    (hF.differentiable le_rfl (x, y)).hasFDerivAt
  have hg : HasDerivAt (fun t : ℝ => (x, t)) ((0 : ℝ), (1 : ℝ)) y :=
    (hasDerivAt_const y x).prod (hasDerivAt_id y)
  exact hl.comp_hasDerivAt y hg

/-- C7: `noise` is continuous at every point of the plane, the points of the integer
grid lines included; in particular `|noise((1+ε, 0.5)) − noise((1−ε, 0.5))|` tends to
`0` as `ε` tends to `0`. -/
theorem noise_continuous (sin : ℝ → ℝ) :
    (∀ p : ℝ × ℝ, Tendsto (fun q : ℝ × ℝ => noise sin ⟨q.1, q.2⟩) (𝓝 p)
        (𝓝 (noise sin ⟨p.1, p.2⟩))) ∧
    Tendsto (fun ε : ℝ => |noise sin ⟨1 + ε, 0.5⟩ - noise sin ⟨1 - ε, 0.5⟩|)
      (𝓝 0) (𝓝 0) := by
  have hcont : Continuous (fun q : ℝ × ℝ => noise sin ⟨q.1, q.2⟩) :=
    (contDiff_noise sin).continuous
  refine ⟨fun p => hcont.continuousAt, ?_⟩
  have hright : Continuous (fun ε : ℝ => ((1 + ε, (0.5 : ℝ)) : ℝ × ℝ)) :=
    (continuous_const.add continuous_id).prod_mk continuous_const
  have hleft : Continuous (fun ε : ℝ => ((1 - ε, (0.5 : ℝ)) : ℝ × ℝ)) :=
    (continuous_const.sub continuous_id).prod_mk continuous_const
  have hplus : Continuous (fun ε : ℝ => noise sin ⟨1 + ε, 0.5⟩) := by
    have h := Continuous.comp hcont hright
    exact h
  have hminus : Continuous (fun ε : ℝ => noise sin ⟨1 - ε, 0.5⟩) := by
    have h := Continuous.comp hcont hleft
    exact h
  have hdiff : Continuous
      (fun ε : ℝ => |noise sin ⟨1 + ε, 0.5⟩ - noise sin ⟨1 - ε, 0.5⟩|) :=
    (hplus.sub hminus).abs
  have h0 : |noise sin ⟨1 + 0, 0.5⟩ - noise sin ⟨1 - 0, 0.5⟩| = 0 := by
    rw [add_zero, sub_zero, sub_self, abs_zero]
  exact hdiff.tendsto' 0 0 h0

/-- C8: `noise` is continuously differentiable on the whole plane: both partial
derivatives exist at every point, the points of the integer grid lines included, and
both are continuous functions on the plane. -/
theorem noise_contDiff_one (sin : ℝ → ℝ) :
    ContDiff ℝ 1 (fun q : ℝ × ℝ => noise sin ⟨q.1, q.2⟩) ∧
    (∀ x y : ℝ, DifferentiableAt ℝ (fun t : ℝ => noise sin ⟨t, y⟩) x ∧
      DifferentiableAt ℝ (fun t : ℝ => noise sin ⟨x, t⟩) y) ∧
    Continuous (fun q : ℝ × ℝ => deriv (fun t : ℝ => noise sin ⟨t, q.2⟩) q.1) ∧
    Continuous (fun q : ℝ × ℝ => deriv (fun t : ℝ => noise sin ⟨q.1, t⟩) q.2) := by
  have hF := contDiff_noise sin
  have hx : ∀ x y : ℝ, HasDerivAt (fun t : ℝ => noise sin ⟨t, y⟩)
      (fderiv ℝ (fun q : ℝ × ℝ => noise sin ⟨q.1, q.2⟩) (x, y) (1, 0)) x := by
    intro x y
    have h := hasDerivAt_partial_fst hF x y
    exact h
  have hy : ∀ x y : ℝ, HasDerivAt (fun t : ℝ => noise sin ⟨x, t⟩)
      (fderiv ℝ (fun q : ℝ × ℝ => noise sin ⟨q.1, q.2⟩) (x, y) (0, 1)) y := by
    intro x y
    have h := hasDerivAt_partial_snd hF x y
    exact h
  have hcf : Continuous (fderiv ℝ (fun q : ℝ × ℝ => noise sin ⟨q.1, q.2⟩)) :=
    hF.continuous_fderiv le_rfl
  refine ⟨hF, fun x y => ⟨(hx x y).differentiableAt, (hy x y).differentiableAt⟩, ?_, ?_⟩
  · have he : (fun q : ℝ × ℝ => deriv (fun t : ℝ => noise sin ⟨t, q.2⟩) q.1) =
        fun q : ℝ × ℝ => fderiv ℝ (fun q : ℝ × ℝ => noise sin ⟨q.1, q.2⟩) q (1, 0) :=
      funext fun q => (hx q.1 q.2).deriv
    rw [he]
    exact hcf.clm_apply continuous_const
  · have he : (fun q : ℝ × ℝ => deriv (fun t : ℝ => noise sin ⟨q.1, t⟩) q.2) =
        fun q : ℝ × ℝ => fderiv ℝ (fun q : ℝ × ℝ => noise sin ⟨q.1, q.2⟩) q (0, 1) :=
      funext fun q => (hy q.1 q.2).deriv
    rw [he]
    exact hcf.clm_apply continuous_const

end Analysis

/-! ## The hash formula and the constant `PI` -/

section HashFormula

variable {α : Type*} [LinearOrderedField α] [FloorRing α]

/-- C13: the constant `PI` is exactly the decimal `3.14159265359`, that is
`314159265359 / 10^11`, and it is within `5 × 10^-12` of `π`. -/
theorem PI_value :
    (PI : ℝ) = 3.14159265359 ∧ (PI : ℝ) = 314159265359 / 10 ^ 11 ∧
      |(PI : ℝ) - Real.pi| ≤ 5 / 10 ^ 12 := by
  have hlo := Real.pi_gt_d20
  have hhi := Real.pi_lt_d20
  refine ⟨rfl, by simp only [PI]; norm_num, ?_⟩
  rw [abs_le]
  simp only [PI]
  constructor
  · norm_num at hhi ⊢; linarith
  · norm_num at hlo ⊢; linarith

end HashFormula

/-! ## The floored modulo in exact arithmetic: its range -/

section ModMore

variable {α : Type*} [LinearOrderedField α] [FloorRing α]

/-- For a positive divisor the floored modulo lies in `[0, y)`. -/
lemma mod_mem_Ico_of_pos (x : α) {y : α} (hy : 0 < y) : 0 ≤ mod x y ∧ mod x y < y := by
  have h1 : floor (x / y) ≤ x / y := floor_le_self (x / y)
  have h2 : x / y < floor (x / y) + 1 := self_lt_floor_add_one (x / y)
  have hxy : y * (x / y) = x := mul_div_cancel₀ x hy.ne'
  have h3 := mul_le_mul_of_nonneg_left h1 hy.le
  have h4 := mul_lt_mul_of_pos_left h2 hy
  simp only [mod]
  constructor <;> linarith

/-- For a negative divisor the floored modulo lies in `(y, 0]`. -/
lemma mod_mem_Ioc_of_neg (x : α) {y : α} (hy : y < 0) : y < mod x y ∧ mod x y ≤ 0 := by
  have h1 : floor (x / y) ≤ x / y := floor_le_self (x / y)
  have h2 : x / y < floor (x / y) + 1 := self_lt_floor_add_one (x / y)
  have hxy : y * (x / y) = x := mul_div_cancel₀ x hy.ne
  have h3 := mul_le_mul_of_nonpos_left h1 hy.le
  have h4 := mul_lt_mul_of_neg_left h2 hy
  simp only [mod]
  constructor <;> linarith

end ModMore

/-! ## The blend in exact arithmetic: between its end values -/

section Bilinear

variable {α : Type*} [LinearOrderedField α]

/-- A blend with a weight in `[0, 1]` lies between its two end values. -/
lemma mix_between (a b : α) {t : α} (ht0 : 0 ≤ t) (ht1 : t ≤ 1) :
    min a b ≤ mix a b t ∧ mix a b t ≤ max a b := by
  have h : mix a b t = a + t * (b - a) := rfl
  rcases le_total a b with hab | hab
  · have h1 : 0 ≤ t * (b - a) := mul_nonneg ht0 (by linarith)
    have h2 : t * (b - a) ≤ 1 * (b - a) := mul_le_mul_of_nonneg_right ht1 (by linarith)
    rw [min_eq_left hab, max_eq_right hab, h]
    constructor <;> linarith
  · have h1 : t * (b - a) ≤ 0 := mul_nonpos_of_nonneg_of_nonpos ht0 (by linarith)
    have h2 : 1 * (b - a) ≤ t * (b - a) := mul_le_mul_of_nonpos_right ht1 (by linarith)
    rw [min_eq_right hab, max_eq_left hab, h]
    constructor <;> linarith

end Bilinear

/-! ## Binary32 rounding: monotonicity, fixed points and error -/

section Rounding

/-! ### Round half to even -/

lemma rhe_char (t : ℚ) :
    |t - rhe t| < 1 / 2 ∨ (|t - rhe t| = 1 / 2 ∧ Even (rhe t)) := by
  have h1 : (⌊t⌋ : ℚ) ≤ t := Int.floor_le t
  have h2 : t < ⌊t⌋ + 1 := Int.lt_floor_add_one t
  unfold rhe
  split_ifs with ha hb hc
  · left; rw [abs_lt]; constructor <;> linarith
  · left; push_cast; rw [abs_lt]; constructor <;> linarith
  · have he : t - ⌊t⌋ = 1 / 2 := le_antisymm (not_lt.mp hb) (not_lt.mp ha)
    right
    refine ⟨by rw [he]; norm_num, ?_⟩
    exact Int.even_iff.mpr hc
  · have he : t - ⌊t⌋ = 1 / 2 := le_antisymm (not_lt.mp hb) (not_lt.mp ha)
    right
    refine ⟨?_, ?_⟩
    · push_cast
      have : t - (⌊t⌋ + 1) = -(1 / 2) := by linarith
      rw [this]; norm_num
    · have hodd : ⌊t⌋ % 2 = 1 := by omega
      exact Int.even_add_one.mpr (Int.not_even_iff.mpr hodd)

lemma rhe_unique {t : ℚ} {n : ℤ}
    (h : |t - n| < 1 / 2 ∨ (|t - n| = 1 / 2 ∧ Even n)) : rhe t = n := by
  have hr := rhe_char t
  by_contra hne
  have hd : (1 : ℚ) ≤ |((rhe t : ℤ) : ℚ) - n| := by
    have h1 : (1 : ℤ) ≤ |rhe t - n| := Int.one_le_abs (sub_ne_zero.mpr hne)
    have h2 : ((1 : ℤ) : ℚ) ≤ ((|rhe t - n| : ℤ) : ℚ) := by exact_mod_cast h1
    simpa using h2
  have htri : |((rhe t : ℤ) : ℚ) - n| ≤ |t - rhe t| + |t - n| := by
    have e : ((rhe t : ℤ) : ℚ) - n = (t - n) - (t - rhe t) := by ring
    rw [e]
    have := abs_sub (t - n) (t - rhe t)
    linarith
  have ha : |t - rhe t| ≤ 1 / 2 := by rcases hr with h1 | h1; exact h1.le; exact h1.1.le
  have hb : |t - n| ≤ 1 / 2 := by rcases h with h1 | h1; exact h1.le; exact h1.1.le
  have ea : |t - rhe t| = 1 / 2 := by linarith
  have eb : |t - n| = 1 / 2 := by linarith
  have hev1 : Even (rhe t) := by
    rcases hr with h1 | h1
    · linarith
    · exact h1.2
  have hev2 : Even n := by
    rcases h with h1 | h1
    · linarith
    · exact h1.2
  have hle : |((rhe t : ℤ) : ℚ) - n| ≤ 1 := by linarith
  have hone : |rhe t - n| = 1 := by
    have h1 : (1 : ℤ) ≤ |rhe t - n| := Int.one_le_abs (sub_ne_zero.mpr hne)
    have h2 : ((|rhe t - n| : ℤ) : ℚ) ≤ 1 := by simpa using hle
    have h3 : |rhe t - n| ≤ 1 := by exact_mod_cast h2
    omega
  obtain ⟨a, ha'⟩ := hev1
  obtain ⟨b, hb'⟩ := hev2
  rw [ha', hb'] at hone
  rcases abs_cases (a + a - (b + b)) with ⟨h1, _⟩ | ⟨h1, _⟩ <;> omega

lemma rhe_intCast (n : ℤ) : rhe (n : ℚ) = n :=
  rhe_unique (Or.inl (by simp))

lemma rhe_abs_sub_le (t : ℚ) : |t - rhe t| ≤ 1 / 2 := by
  rcases rhe_char t with h | h
  · exact h.le
  · exact h.1.le

lemma rhe_mono {t s : ℚ} (h : t ≤ s) : rhe t ≤ rhe s := by
  by_contra hlt
  push_neg at hlt
  have h1 := abs_le.mp (rhe_abs_sub_le t)
  have h2 := abs_le.mp (rhe_abs_sub_le s)
  have h3 : ((rhe s : ℤ) : ℚ) + 1 ≤ rhe t := by exact_mod_cast hlt
  have hts : t = s := by linarith
  rw [hts] at hlt
  exact lt_irrefl _ hlt

lemma rhe_neg (t : ℚ) : rhe (-t) = -rhe t := by
  apply rhe_unique
  rcases rhe_char t with h | h
  · left
    have e : -t - ((-rhe t : ℤ) : ℚ) = -(t - rhe t) := by push_cast; ring
    rw [e, abs_neg]; exact h
  · right
    have e : -t - ((-rhe t : ℤ) : ℚ) = -(t - rhe t) := by push_cast; ring
    rw [e, abs_neg]
    exact ⟨h.1, h.2.neg⟩

lemma le_rhe {t : ℚ} {n : ℤ} (h : (n : ℚ) ≤ t) : n ≤ rhe t := by
  have := rhe_mono h
  rwa [rhe_intCast] at this

lemma rhe_le {t : ℚ} {n : ℤ} (h : t ≤ (n : ℚ)) : rhe t ≤ n := by
  have := rhe_mono h
  rwa [rhe_intCast] at this


/-! ### The exponent of a binade -/

lemma two_zpow_pos (k : ℤ) : (0 : ℚ) < 2 ^ k := zpow_pos (by norm_num) k

lemma two_zpow_le {m n : ℤ} (h : m ≤ n) : (2 : ℚ) ^ m ≤ 2 ^ n :=
  zpow_le_zpow_right₀ (by norm_num) h

lemma two_zpow_add_nat (k : ℤ) (j : ℕ) : (2 : ℚ) ^ (k + j) = 2 ^ j * 2 ^ k := by
  rw [zpow_add₀ (by norm_num : (2 : ℚ) ≠ 0), zpow_natCast]; ring

lemma log_lt_of_lt {q : ℚ} (hq : 0 < q) {m : ℤ} (h : q < 2 ^ m) : Int.log 2 q < m := by
  have := (Int.lt_zpow_iff_log_lt (R := ℚ) (b := 2) (by norm_num) hq (x := m)).mp
    (by simpa using h)
  exact this

lemma le_log_of_le {q : ℚ} (hq : 0 < q) {m : ℤ} (h : 2 ^ m ≤ q) : m ≤ Int.log 2 q := by
  have := (Int.zpow_le_iff_le_log (R := ℚ) (b := 2) (by norm_num) hq (x := m)).mp
    (by simpa using h)
  exact this

lemma expo_ge (q : ℚ) : -126 ≤ expo q := by
  unfold expo
  split_ifs
  · exact le_refl _
  · exact le_max_right _ _

lemma abs_lt_two_zpow_expo_succ (q : ℚ) : |q| < 2 ^ (expo q + 1) := by
  by_cases hq : q = 0
  · rw [hq, abs_zero]; exact two_zpow_pos _
  · have h1 : |q| < 2 ^ (Int.log 2 |q| + 1) := by
      have := Int.lt_zpow_succ_log_self (R := ℚ) (b := 2) (by norm_num) |q|
      simpa using this
    have h2 : Int.log 2 |q| + 1 ≤ expo q + 1 := by
      unfold expo; rw [if_neg hq]
      have := le_max_left (Int.log 2 |q|) (-126)
      omega
    exact lt_of_lt_of_le h1 (two_zpow_le h2)

lemma two_zpow_expo_le {q : ℚ} (h : -126 < expo q) : 2 ^ expo q ≤ |q| := by
  have hq : q ≠ 0 := by
    intro h0; rw [h0] at h; simp [expo] at h
  have hpos : 0 < |q| := abs_pos.mpr hq
  have he : expo q = Int.log 2 |q| := by
    unfold expo at h ⊢
    rw [if_neg hq] at h ⊢
    rcases max_cases (Int.log 2 |q|) (-126) with ⟨h1, _⟩ | ⟨h1, _⟩
    · exact h1
    · rw [h1] at h; exact absurd h (lt_irrefl _)
  rw [he]
  have := Int.zpow_log_le_self (R := ℚ) (b := 2) (by norm_num) hpos
  simpa using this

lemma expo_eq_of_normal {q : ℚ} {E : ℤ} (hE : -126 ≤ E) (h1 : 2 ^ E ≤ |q|)
    (h2 : |q| < 2 ^ (E + 1)) : expo q = E := by
  have hpos : 0 < |q| := lt_of_lt_of_le (two_zpow_pos E) h1
  have hq : q ≠ 0 := abs_pos.mp hpos
  have hlog : Int.log 2 |q| = E := by
    have a := log_lt_of_lt hpos h2
    have b := le_log_of_le hpos h1
    omega
  unfold expo
  rw [if_neg hq, hlog]
  exact max_eq_left hE

lemma expo_mono {q r : ℚ} (h : |q| ≤ |r|) : expo q ≤ expo r := by
  by_cases hq : q = 0
  · have : expo q = -126 := by simp [expo, hq]
    rw [this]; exact expo_ge r
  · have hpos : 0 < |q| := abs_pos.mpr hq
    have hr : r ≠ 0 := abs_pos.mp (lt_of_lt_of_le hpos h)
    unfold expo
    rw [if_neg hq, if_neg hr]
    exact max_le_max (Int.log_mono_right hpos h) (le_refl _)

lemma expo_neg (q : ℚ) : expo (-q) = expo q := by
  unfold expo
  simp only [neg_eq_zero, abs_neg]

lemma expo_le_of_lt {q : ℚ} {k : ℤ} (hk : -126 ≤ k) (h : |q| < 2 ^ (k + 1)) : expo q ≤ k := by
  by_cases hq : q = 0
  · simp [expo, hq, hk]
  · have hpos : 0 < |q| := abs_pos.mpr hq
    have a := log_lt_of_lt hpos h
    unfold expo
    rw [if_neg hq]
    exact max_le (by omega) hk

/-! ### Rounding to binary32 precision -/

lemma rnd_eq_of {q : ℚ} {E n : ℤ} (hE : expo q = E) (hn : rhe (q / 2 ^ (E - 23)) = n) :
    rnd q = n * 2 ^ (E - 23) := by
  unfold rnd; rw [hE, hn]

lemma rnd_zero : rnd 0 = 0 := by
  unfold rnd
  rw [zero_div]
  have : rhe (0 : ℚ) = 0 := by simpa using rhe_intCast 0
  rw [this]; simp

lemma rnd_neg (q : ℚ) : rnd (-q) = -rnd q := by
  unfold rnd
  rw [expo_neg, neg_div, rhe_neg]
  push_cast; ring

lemma rnd_nonneg {q : ℚ} (h : 0 ≤ q) : 0 ≤ rnd q := by
  unfold rnd
  have hu := two_zpow_pos (expo q - 23)
  have h1 : ((0 : ℤ) : ℚ) ≤ q / 2 ^ (expo q - 23) := by
    simpa using div_nonneg h hu.le
  have h2 : (0 : ℤ) ≤ rhe (q / 2 ^ (expo q - 23)) := le_rhe h1
  have h3 : (0 : ℚ) ≤ rhe (q / 2 ^ (expo q - 23)) := by exact_mod_cast h2
  exact mul_nonneg h3 hu.le

lemma rnd_nonpos {q : ℚ} (h : q ≤ 0) : rnd q ≤ 0 := by
  have := rnd_nonneg (neg_nonneg.mpr h)
  rw [rnd_neg] at this
  linarith

lemma two_zpow_expo_succ (q : ℚ) :
    (2 : ℚ) ^ (expo q + 1) = 2 ^ 24 * 2 ^ (expo q - 23) := by
  have e : expo q + 1 = (expo q - 23) + ((24 : ℕ) : ℤ) := by push_cast; ring
  rw [e, two_zpow_add_nat]

lemma two_zpow_expo (q : ℚ) : (2 : ℚ) ^ expo q = 2 ^ 23 * 2 ^ (expo q - 23) := by
  have e : expo q = (expo q - 23) + ((23 : ℕ) : ℤ) := by push_cast; ring
  nth_rewrite 1 [e]
  rw [two_zpow_add_nat]

lemma rhe_quot_le (q : ℚ) : rhe (q / 2 ^ (expo q - 23)) ≤ 2 ^ 24 := by
  have hu := two_zpow_pos (expo q - 23)
  have h1 : q < 2 ^ (expo q + 1) := lt_of_le_of_lt (le_abs_self q) (abs_lt_two_zpow_expo_succ q)
  rw [two_zpow_expo_succ] at h1
  have h2 : q / 2 ^ (expo q - 23) ≤ ((2 ^ 24 : ℤ) : ℚ) := by
    rw [div_le_iff₀ hu]; push_cast; exact h1.le
  exact rhe_le h2

lemma le_rhe_quot (q : ℚ) : -(2 ^ 24) ≤ rhe (q / 2 ^ (expo q - 23)) := by
  have hu := two_zpow_pos (expo q - 23)
  have h1 : -q < 2 ^ (expo q + 1) :=
    lt_of_le_of_lt (neg_le_abs q) (abs_lt_two_zpow_expo_succ q)
  rw [two_zpow_expo_succ] at h1
  have h2 : ((-(2 ^ 24) : ℤ) : ℚ) ≤ q / 2 ^ (expo q - 23) := by
    rw [le_div_iff₀ hu]; push_cast; linarith
  exact le_rhe h2

lemma rnd_le_two_zpow (q : ℚ) : rnd q ≤ 2 ^ (expo q + 1) := by
  have hu := two_zpow_pos (expo q - 23)
  have h := rhe_quot_le q
  have h' : ((rhe (q / 2 ^ (expo q - 23)) : ℤ) : ℚ) ≤ 2 ^ 24 := by exact_mod_cast h
  rw [two_zpow_expo_succ]
  unfold rnd
  exact mul_le_mul_of_nonneg_right h' hu.le

lemma two_zpow_le_rnd {q : ℚ} (h : 2 ^ expo q ≤ q) : 2 ^ expo q ≤ rnd q := by
  have hu := two_zpow_pos (expo q - 23)
  have h1 : ((2 ^ 23 : ℤ) : ℚ) ≤ q / 2 ^ (expo q - 23) := by
    rw [le_div_iff₀ hu]
    have e := two_zpow_expo q
    push_cast
    norm_num at e ⊢
    linarith
  have h2 := le_rhe h1
  have h3 : ((2 : ℚ) ^ 23) ≤ rhe (q / 2 ^ (expo q - 23)) := by exact_mod_cast h2
  rw [two_zpow_expo]
  unfold rnd
  exact mul_le_mul_of_nonneg_right h3 hu.le

lemma rnd_mono_of_pos {q r : ℚ} (hq : 0 < q) (h : q ≤ r) : rnd q ≤ rnd r := by
  have hr : 0 < r := lt_of_lt_of_le hq h
  have habs : |q| ≤ |r| := by rw [abs_of_pos hq, abs_of_pos hr]; exact h
  have hE := expo_mono habs
  rcases eq_or_lt_of_le hE with he | hlt
  · unfold rnd
    rw [he]
    have hu := two_zpow_pos (expo r - 23)
    have h1 : q / 2 ^ (expo r - 23) ≤ r / 2 ^ (expo r - 23) :=
      div_le_div_of_nonneg_right h hu.le
    have h2 := rhe_mono h1
    have h3 : ((rhe (q / 2 ^ (expo r - 23)) : ℤ) : ℚ) ≤ rhe (r / 2 ^ (expo r - 23)) := by
      exact_mod_cast h2
    exact mul_le_mul_of_nonneg_right h3 hu.le
  · have hnorm : -126 < expo r := lt_of_le_of_lt (expo_ge q) hlt
    have h1 : 2 ^ expo r ≤ r := by
      have := two_zpow_expo_le hnorm
      rwa [abs_of_pos hr] at this
    have h2 := two_zpow_le_rnd h1
    have h3 := rnd_le_two_zpow q
    have h4 : (2 : ℚ) ^ (expo q + 1) ≤ 2 ^ expo r := two_zpow_le (by omega)
    linarith

/-- Rounding to binary32 precision is monotone. -/
lemma rnd_mono {q r : ℚ} (h : q ≤ r) : rnd q ≤ rnd r := by
  rcases lt_trichotomy 0 q with hq | hq | hq
  · exact rnd_mono_of_pos hq h
  · rw [← hq, rnd_zero]; exact rnd_nonneg (hq ▸ h)
  · rcases le_or_lt 0 r with hr | hr
    · exact (rnd_nonpos hq.le).trans (rnd_nonneg hr)
    · have h1 : rnd (-r) ≤ rnd (-q) := rnd_mono_of_pos (neg_pos.mpr hr) (neg_le_neg h)
      rw [rnd_neg, rnd_neg] at h1
      linarith

/-- A multiple `n * 2^k` with `|n| < 2^24` and `k ≥ -149` is a binary32 value: rounding
leaves it unchanged. -/
lemma rnd_grid (n k : ℤ) (hk : -149 ≤ k) (hn : |n| < 2 ^ 24) :
    rnd ((n : ℚ) * 2 ^ k) = (n : ℚ) * 2 ^ k := by
  have hE : expo ((n : ℚ) * 2 ^ k) ≤ k + 23 := by
    apply expo_le_of_lt (by omega)
    have h1 : |(n : ℚ)| < 2 ^ 24 := by
      have : ((|n| : ℤ) : ℚ) < ((2 ^ 24 : ℤ) : ℚ) := by exact_mod_cast hn
      simpa using this
    rw [abs_mul, abs_of_pos (two_zpow_pos k)]
    have e : k + 23 + 1 = k + ((24 : ℕ) : ℤ) := by push_cast; ring
    rw [e, two_zpow_add_nat]
    exact mul_lt_mul_of_pos_right h1 (two_zpow_pos k)
  set E := expo ((n : ℚ) * 2 ^ k) with hEdef
  obtain ⟨j, hj⟩ : ∃ j : ℕ, k = (E - 23) + (j : ℤ) := ⟨(k - (E - 23)).toNat, by omega⟩
  have hpow : (2 : ℚ) ^ k = 2 ^ j * 2 ^ (E - 23) := by
    nth_rewrite 1 [hj]; exact two_zpow_add_nat _ _
  have hquot : (n : ℚ) * 2 ^ k / 2 ^ (E - 23) = ((n * 2 ^ j : ℤ) : ℚ) := by
    rw [hpow]; push_cast
    field_simp
    ring
  unfold rnd
  rw [← hEdef, hquot, rhe_intCast, hpow]
  push_cast; ring

lemma rnd_rnd (q : ℚ) : rnd (rnd q) = rnd q := by
  have h1 := rhe_quot_le q
  have h2 := le_rhe_quot q
  have hk : -149 ≤ expo q - 23 := by have := expo_ge q; omega
  rcases lt_or_eq_of_le h1 with h3 | h3
  · rcases lt_or_eq_of_le h2 with h4 | h4
    · have : rnd q = ((rhe (q / 2 ^ (expo q - 23)) : ℤ) : ℚ) * 2 ^ (expo q - 23) := rfl
      rw [this]
      exact rnd_grid _ _ hk (abs_lt.mpr ⟨h4, h3⟩)
    · have e : rnd q = ((-(2 ^ 23) : ℤ) : ℚ) * 2 ^ (expo q - 23 + 1) := by
        unfold rnd; rw [← h4]
        rw [zpow_add_one₀ (by norm_num : (2 : ℚ) ≠ 0)]; push_cast; ring
      rw [e]
      exact rnd_grid _ _ (by omega) (by norm_num)
  · have e : rnd q = ((2 ^ 23 : ℤ) : ℚ) * 2 ^ (expo q - 23 + 1) := by
      unfold rnd; rw [h3]
      rw [zpow_add_one₀ (by norm_num : (2 : ℚ) ≠ 0)]; push_cast; ring
    rw [e]
    exact rnd_grid _ _ (by omega) (by norm_num)

lemma rnd_abs_sub_le (q : ℚ) : |rnd q - q| ≤ 2 ^ (expo q - 24) := by
  have hu := two_zpow_pos (expo q - 23)
  have h := rhe_abs_sub_le (q / 2 ^ (expo q - 23))
  have e : rnd q - q =
      -((q / 2 ^ (expo q - 23) - rhe (q / 2 ^ (expo q - 23))) * 2 ^ (expo q - 23)) := by
    unfold rnd; field_simp; ring
  have e2 : (2 : ℚ) ^ (expo q - 24) = 1 / 2 * 2 ^ (expo q - 23) := by
    have : expo q - 23 = (expo q - 24) + 1 := by ring
    rw [this, zpow_add_one₀ (by norm_num : (2 : ℚ) ≠ 0)]; ring
  rw [e, abs_neg, abs_mul, abs_of_pos hu, e2]
  exact mul_le_mul_of_nonneg_right h hu.le

/-- The rounding error is at most half a unit in the last place of the binade. -/
lemma rnd_error {q : ℚ} {k : ℤ} (hk : -126 ≤ k) (h : |q| ≤ 2 ^ (k + 1)) :
    |rnd q - q| ≤ 2 ^ (k - 24) := by
  rcases lt_or_eq_of_le h with h1 | h1
  · have hE := expo_le_of_lt hk h1
    exact (rnd_abs_sub_le q).trans (two_zpow_le (by omega))
  · have hfix : rnd q = q := by
      rcases abs_cases q with ⟨h2, _⟩ | ⟨h2, _⟩
      · have e : q = ((1 : ℤ) : ℚ) * 2 ^ (k + 1) := by rw [← h2, h1]; simp
        rw [e]; exact rnd_grid 1 (k + 1) (by omega) (by norm_num)
      · have e : q = ((-1 : ℤ) : ℚ) * 2 ^ (k + 1) := by
          have : q = -|q| := by rw [h2]; ring
          rw [this, h1]; simp
        rw [e]; exact rnd_grid (-1) (k + 1) (by omega) (by norm_num)
    rw [hfix, sub_self, abs_zero]
    exact (two_zpow_pos _).le


/-! ### Evaluation of the rounding at concrete rationals -/

lemma rnd_eval {q : ℚ} (E n : ℤ) (hE : -126 ≤ E) (h1 : 2 ^ E ≤ q) (h2 : q < 2 ^ (E + 1))
    (h3 : (n : ℚ) - 1 / 2 < q / 2 ^ (E - 23)) (h4 : q / 2 ^ (E - 23) < n + 1 / 2) :
    rnd q = n * 2 ^ (E - 23) := by
  have hpos : 0 < q := lt_of_lt_of_le (two_zpow_pos E) h1
  have hexp : expo q = E :=
    expo_eq_of_normal hE (by rwa [abs_of_pos hpos]) (by rwa [abs_of_pos hpos])
  exact rnd_eq_of hexp (rhe_unique (Or.inl (by rw [abs_lt]; constructor <;> linarith)))

lemma rnd_eval_tie {q : ℚ} (E n : ℤ) (hE : -126 ≤ E) (h1 : 2 ^ E ≤ q) (h2 : q < 2 ^ (E + 1))
    (h3 : |q / 2 ^ (E - 23) - n| = 1 / 2) (h4 : Even n) :
    rnd q = n * 2 ^ (E - 23) := by
  have hpos : 0 < q := lt_of_lt_of_le (two_zpow_pos E) h1
  have hexp : expo q = E :=
    expo_eq_of_normal hE (by rwa [abs_of_pos hpos]) (by rwa [abs_of_pos hpos])
  exact rnd_eq_of hexp (rhe_unique (Or.inr ⟨h3, h4⟩))


lemma rnd_int {n : ℤ} (h : |n| < 2 ^ 24) : rnd (n : ℚ) = n := by
  have := rnd_grid n 0 (by norm_num) h
  simpa using this

lemma rnd_dyadic (n : ℤ) (j : ℕ) (hj : j ≤ 149) (hn : |n| < 2 ^ 24) :
    rnd ((n : ℚ) / 2 ^ j) = (n : ℚ) / 2 ^ j := by
  have h := rnd_grid n (-(j : ℤ)) (by omega) hn
  have e : (2 : ℚ) ^ (-(j : ℤ)) = 1 / 2 ^ j := by
    rw [zpow_neg, zpow_natCast]; simp
  rw [e] at h
  have e2 : (n : ℚ) * (1 / 2 ^ j) = (n : ℚ) / 2 ^ j := by ring
  rwa [e2] at h

lemma rnd_le_of_le {q g : ℚ} (hg : rnd g = g) (h : q ≤ g) : rnd q ≤ g := by
  have := rnd_mono h
  rwa [hg] at this

lemma le_rnd_of_le {q g : ℚ} (hg : rnd g = g) (h : g ≤ q) : g ≤ rnd q := by
  have := rnd_mono h
  rwa [hg] at this

/-- A binary32 value is an integer multiple of the least subnormal `2^-149`. -/
lemma exists_int_of_rnd_eq {q : ℚ} (h : rnd q = q) : ∃ m : ℤ, q = m / 2 ^ 149 := by
  have hk : -126 ≤ expo q := expo_ge q
  obtain ⟨j, hj⟩ : ∃ j : ℕ, expo q - 23 = -149 + (j : ℤ) :=
    ⟨(expo q - 23 + 149).toNat, by omega⟩
  refine ⟨rhe (q / 2 ^ (expo q - 23)) * 2 ^ j, ?_⟩
  have e : (2 : ℚ) ^ (expo q - 23) = 2 ^ j / 2 ^ 149 := by
    rw [hj, zpow_add₀ (by norm_num : (2 : ℚ) ≠ 0), zpow_natCast, zpow_neg]
    have : (2 : ℚ) ^ (149 : ℤ) = 2 ^ 149 := by norm_cast
    rw [this]; ring
  have hq : q = rhe (q / 2 ^ (expo q - 23)) * 2 ^ (expo q - 23) := h.symm
  nth_rewrite 1 [hq]
  rw [e]; push_cast; ring

end Rounding

/-! ## Binary32 operations: basic facts -/

namespace F32

lemma ofRat_eq_fin {q : ℚ} (h : |rnd q| < 2 ^ 128) : ofRat q = fin (rnd q) := by
  have h' := abs_lt.mp h
  unfold ofRat
  rw [if_neg (not_le.mpr h'.2), if_neg (not_le.mpr h'.1)]

lemma ofRat_of_rnd_eq {q : ℚ} (hq : rnd q = q) (h : |q| < 2 ^ 128) : ofRat q = fin q := by
  have := ofRat_eq_fin (q := q) (by rwa [hq])
  rwa [hq] at this

/-- An exact result between two binary32 values rounds to a finite value between
them. -/
lemma ofRat_between {q lo hi : ℚ} (hlo : rnd lo = lo) (hhi : rnd hi = hi) (h1 : lo ≤ q)
    (h2 : q ≤ hi) (h3 : -2 ^ 128 < lo) (h4 : hi < 2 ^ 128) :
    ofRat q = fin (rnd q) ∧ lo ≤ rnd q ∧ rnd q ≤ hi := by
  have a := le_rnd_of_le hlo h1
  have b := rnd_le_of_le hhi h2
  refine ⟨ofRat_eq_fin (abs_lt.mpr ⟨by linarith, by linarith⟩), a, b⟩

lemma ofRat_zero : ofRat 0 = fin 0 := by
  have := ofRat_of_rnd_eq rnd_zero (by norm_num)
  exact this

lemma ofRat_int {n : ℤ} (h : |n| < 2 ^ 24) : ofRat (n : ℚ) = fin n := by
  apply ofRat_of_rnd_eq (rnd_int h)
  have h1 : |(n : ℚ)| < 2 ^ 24 := by
    have : ((|n| : ℤ) : ℚ) < ((2 ^ 24 : ℤ) : ℚ) := by exact_mod_cast h
    simpa using this
  exact lt_trans h1 (by norm_num)

lemma fin_add_fin (a b : ℚ) : fin a + fin b = ofRat (a + b) := rfl

lemma fin_sub_fin (a b : ℚ) : fin a - fin b = ofRat (a - b) := rfl

lemma fin_mul_fin (a b : ℚ) : fin a * fin b = ofRat (a * b) := rfl

lemma fin_div_fin {a b : ℚ} (hb : b ≠ 0) : fin a / fin b = ofRat (a / b) := by
  show div (fin a) (fin b) = _
  simp only [div, if_neg hb]

lemma nan_add (x : F32) : nan + x = nan := by
  show add nan x = nan
  cases x <;> rfl

lemma sub_nan (x : F32) : x - nan = nan := by
  show sub x nan = nan
  cases x <;> rfl

lemma nan_mul (x : F32) : nan * x = nan := by
  show mul nan x = nan
  cases x <;> rfl

lemma mul_nan (x : F32) : x * nan = nan := by
  show mul x nan = nan
  cases x <;> rfl

lemma zero_mul_pinf : fin 0 * pinf = nan := by
  show mul (fin 0) pinf = nan
  simp [mul]

lemma zero_mul_ninf : fin 0 * ninf = nan := by
  show mul (fin 0) ninf = nan
  simp [mul]

end F32

/-! ## The floored modulo in binary32 -/

namespace F32

/-- C15: for every `x`, finite or not, `mod(x, 0)` raises no error and returns NaN, a
non-finite value; the same holds whatever non-finite value the division by a zero of
either sign produces. -/
theorem mod_zero_nan (x : F32) :
    mod x (fin 0) = nan ∧ ¬ IsFinite (mod x (fin 0)) ∧
      ∀ v : F32, ¬ IsFinite v → x - fin 0 * floor v = nan := by
  have hv : ∀ v : F32, ¬ IsFinite v → x - fin 0 * floor v = nan := by
    intro v hv
    cases v with
    | nan => show x - fin 0 * nan = nan; rw [mul_nan, sub_nan]
    | pinf => show x - fin 0 * pinf = nan; rw [zero_mul_pinf, sub_nan]
    | ninf => show x - fin 0 * ninf = nan; rw [zero_mul_ninf, sub_nan]
    | fin q => exact absurd trivial hv
  have hdiv : ¬ IsFinite (x / fin 0) := by
    show ¬ IsFinite (div x (fin 0))
    cases x with
    | nan => simp [div, IsFinite]
    | pinf => simp [div, IsFinite]
    | ninf => simp [div, IsFinite]
    | fin a =>
      simp only [div, if_true]
      split_ifs <;> simp [IsFinite]
  have hmod : mod x (fin 0) = nan := hv _ hdiv
  refine ⟨hmod, ?_, hv⟩
  rw [hmod]; simp [IsFinite]

/-- Witness of C15 at `x = 1` and the quotient `+∞`: `1 - 0 * floor(+∞)` is NaN. -/
theorem mod_zero_nan_witness :
    ¬ IsFinite pinf ∧ fin 1 - fin 0 * floor pinf = nan :=
  ⟨by simp [IsFinite], (mod_zero_nan (fin 1)).2.2 pinf (by simp [IsFinite])⟩

/-- Under `mod_steps_exact`, the binary32 `mod` is the exact floored modulo, rounded
once. -/
lemma mod_eq_ofRat {x y : ℚ} (hy : y ≠ 0) (h : mod_steps_exact x y) :
    mod (fin x) (fin y) = ofRat (x - y * ⌊x / y⌋) := by
  obtain ⟨h1, h2, h3, h4⟩ := h
  show fin x - fin y * floor (fin x / fin y) = _
  rw [fin_div_fin hy, ofRat_eq_fin h1]
  show fin x - fin y * fin ((⌊rnd (x / y)⌋ : ℤ) : ℚ) = _
  rw [h2, fin_mul_fin, ofRat_of_rnd_eq h3 h4, fin_sub_fin]

lemma trunc_rem_eq_ofRat {x y : ℚ} (hy : y ≠ 0) (h : trunc_steps_exact x y) :
    trunc_rem (fin x) (fin y) = ofRat (x - y * itrunc (x / y)) := by
  obtain ⟨h1, h2, h3, h4⟩ := h
  show fin x - fin y * trunc (fin x / fin y) = _
  rw [fin_div_fin hy, ofRat_eq_fin h1]
  show fin x - fin y * fin ((itrunc (rnd (x / y)) : ℤ) : ℚ) = _
  rw [h2, fin_mul_fin, ofRat_of_rnd_eq h3 h4, fin_sub_fin]

/-- The exact floored modulo of rationals lies in `[0, y)` for `y > 0`. -/
lemma exact_mod_pos (x : ℚ) {y : ℚ} (hy : 0 < y) :
    0 ≤ x - y * ⌊x / y⌋ ∧ x - y * ⌊x / y⌋ < y :=
  SumiCore.mod_mem_Ico_of_pos x hy

/-- The exact floored modulo of rationals lies in `(y, 0]` for `y < 0`. -/
lemma exact_mod_neg (x : ℚ) {y : ℚ} (hy : y < 0) :
    y < x - y * ⌊x / y⌋ ∧ x - y * ⌊x / y⌋ ≤ 0 :=
  SumiCore.mod_mem_Ioc_of_neg x hy

end F32

/-! ## The floored modulo in binary32: counterexamples and what holds -/

namespace F32

lemma ofRat_eval {q r : ℚ} (h : rnd q = r) (h1 : -2 ^ 128 < r) (h2 : r < 2 ^ 128) :
    ofRat q = fin r := by
  have := ofRat_eq_fin (q := q) (by rw [h, abs_lt]; exact ⟨h1, h2⟩)
  rwa [h] at this

lemma floor_fin (q : ℚ) (n : ℤ) (h1 : (n : ℚ) ≤ q) (h2 : q < n + 1) :
    floor (fin q) = fin n := by
  show fin ((⌊q⌋ : ℤ) : ℚ) = fin n
  rw [Int.floor_eq_iff.mpr ⟨h1, h2⟩]

lemma trunc_fin (q : ℚ) (n : ℤ) (h : itrunc q = n) : trunc (fin q) = fin n := by
  show fin ((itrunc q : ℤ) : ℚ) = fin n
  rw [h]

/-- The evaluation of `mod(-7, 3)` meets `mod_steps_exact`: the quotient `-7/3` is
rounded, its floor `-3` is unchanged, and the product `-9` is exact. -/
lemma mod_steps_exact_neg_seven_three : mod_steps_exact (-7) 3 := by
  have h1 : rnd (-3) = -3 := by simpa using rnd_int (n := -3) (by norm_num)
  have h2 : rnd (-9 / 4) = -9 / 4 := by
    simpa using rnd_dyadic (-9) 2 (by norm_num) (by norm_num)
  have lo : (-3 : ℚ) ≤ rnd (-7 / 3) := le_rnd_of_le h1 (by norm_num)
  have hi : rnd (-7 / 3) ≤ -9 / 4 := rnd_le_of_le h2 (by norm_num)
  have hfl : ⌊(-7 / 3 : ℚ)⌋ = -3 := by
    rw [Int.floor_eq_iff]; constructor <;> norm_num
  have hfl2 : ⌊rnd (-7 / 3)⌋ = -3 := by
    rw [Int.floor_eq_iff]; constructor
    · simpa using lo
    · push_cast; linarith
  refine ⟨?_, ?_, ?_, ?_⟩
  · rw [abs_lt]; constructor <;> linarith
  · rw [hfl2, hfl]
  · rw [hfl]
    have e : (3 : ℚ) * ((-3 : ℤ) : ℚ) = ((-9 : ℤ) : ℚ) := by norm_num
    rw [e]
    exact rnd_int (by norm_num)
  · rw [hfl]; norm_num

/-- Counterexample to C17 as stated, in binary32: at `x = -2^-40`, `y = 4` the quotient
`-2^-42` and the product `-4` are exact, the subtraction `4 - 2^-40` rounds to `4`, and
`mod(x, y) = 4 = y`, not below `y`. -/
theorem mod_bounds_counterexample :
    rnd (-(1 / 2 ^ 40)) = -(1 / 2 ^ 40) ∧ rnd 4 = 4 ∧ (0 : ℚ) < 4 ∧
    mod (fin (-(1 / 2 ^ 40))) (fin 4) = fin 4 ∧ ¬ ((4 : ℚ) < 4) := by
  have hx : rnd (-(1 / 2 ^ 40)) = -(1 / 2 ^ 40) := by
    have := rnd_dyadic (-1) 40 (by norm_num) (by norm_num)
    have e : (((-1 : ℤ) : ℚ) / 2 ^ 40) = -(1 / 2 ^ 40) := by norm_num
    rwa [e] at this
  have hy : rnd 4 = 4 := by simpa using rnd_int (n := 4) (by norm_num)
  have hq : rnd (-(1 / 2 ^ 40) / 4) = -(1 / 2 ^ 42) := by
    have := rnd_dyadic (-1) 42 (by norm_num) (by norm_num)
    have e : (((-1 : ℤ) : ℚ) / 2 ^ 42) = -(1 / 2 ^ 40) / 4 := by norm_num
    have e2 : (((-1 : ℤ) : ℚ) / 2 ^ 42) = -(1 / 2 ^ 42) := by norm_num
    rw [e] at this
    rw [this, ← e, e2]
  have hp : rnd (4 * ((-1 : ℤ) : ℚ)) = -4 := by
    have e : (4 : ℚ) * ((-1 : ℤ) : ℚ) = ((-4 : ℤ) : ℚ) := by norm_num
    rw [e]
    simpa using rnd_int (n := -4) (by norm_num)
  have hs : rnd (-(1 / 2 ^ 40) - -4) = 4 := by
    rw [rnd_eval 1 16777216 (by norm_num) (by norm_num) (by norm_num) (by norm_num)
      (by norm_num)]
    norm_num
  refine ⟨hx, hy, by norm_num, ?_, by norm_num⟩
  show fin (-(1 / 2 ^ 40)) - fin 4 * floor (fin (-(1 / 2 ^ 40)) / fin 4) = _
  rw [fin_div_fin (by norm_num), ofRat_eval hq (by norm_num) (by norm_num),
    floor_fin (-(1 / 2 ^ 42)) (-1) (by norm_num) (by norm_num), fin_mul_fin,
    ofRat_eval hp (by norm_num) (by norm_num), fin_sub_fin,
    ofRat_eval hs (by norm_num) (by norm_num)]

/-- C17, amended: for finite `x` and binary32 `y ≠ 0`, when the quotient and the product
do not overflow, the rounding of the quotient does not change its floor and the product
`y * floor(x/y)` is exact, `mod(x, y)` is finite with `0 ≤ mod(x, y) ≤ y` for `y > 0` and
`y ≤ mod(x, y) ≤ 0` for `y < 0`; and `mod(x, y) = x` for a binary32 `x` with
`0 ≤ x < y`. -/
theorem mod_bounds_of_exact (x y : ℚ) (hy : y ≠ 0) (hyr : rnd y = y) (hyf : |y| < 2 ^ 128)
    (h : mod_steps_exact x y) :
    ∃ r : ℚ, mod (fin x) (fin y) = fin r ∧ (0 < y → 0 ≤ r ∧ r ≤ y) ∧
      (y < 0 → y ≤ r ∧ r ≤ 0) ∧ (0 ≤ x → x < y → rnd x = x → r = x) := by
  have hb := abs_lt.mp hyf
  rw [mod_eq_ofRat hy h]
  have hthird : 0 ≤ x → x < y → rnd x = x → rnd (x - y * ⌊x / y⌋) = x := by
    intro hx0 hxy hxr
    have hpos : 0 < y := lt_of_le_of_lt hx0 hxy
    have hfl : ⌊x / y⌋ = 0 := by
      rw [Int.floor_eq_iff]
      constructor
      · simpa using div_nonneg hx0 hpos.le
      · simpa using (div_lt_one hpos).mpr hxy
    rw [hfl]; simpa using hxr
  rcases lt_or_gt_of_ne hy with hneg | hpos
  · have he := exact_mod_neg x hneg
    obtain ⟨h1, h2, h3⟩ := ofRat_between hyr rnd_zero he.1.le he.2 hb.1 (by norm_num)
    exact ⟨_, h1, fun h0 => absurd h0 (not_lt.mpr hneg.le), fun _ => ⟨h2, h3⟩, hthird⟩
  · have he := exact_mod_pos x hpos
    obtain ⟨h1, h2, h3⟩ := ofRat_between rnd_zero hyr he.1 he.2.le (by norm_num) hb.2
    exact ⟨_, h1, fun _ => ⟨h2, h3⟩, fun h0 => absurd h0 (not_lt.mpr hpos.le), hthird⟩

/-- The evaluation of `mod(3, 4)` meets `mod_steps_exact`: the quotient `3/4` and the
product `0` are exact. -/
lemma mod_steps_exact_three_four : mod_steps_exact 3 4 := by
  have hq : rnd (3 / 4) = 3 / 4 := by
    simpa using rnd_dyadic 3 2 (by norm_num) (by norm_num)
  have hfl : ⌊(3 / 4 : ℚ)⌋ = 0 := by
    rw [Int.floor_eq_iff]; constructor <;> norm_num
  refine ⟨?_, ?_, ?_, ?_⟩
  · rw [hq, abs_lt]; constructor <;> norm_num
  · rw [hq]
  · rw [hfl]; simpa using rnd_zero
  · rw [hfl]; norm_num

/-- Witness of C17, amended, at `x = 3`, `y = 4`. -/
theorem mod_bounds_of_exact_witness :
    ∃ r : ℚ, mod (fin 3) (fin 4) = fin r ∧ ((0 : ℚ) < 4 → 0 ≤ r ∧ r ≤ 4) ∧
      ((4 : ℚ) < 0 → 4 ≤ r ∧ r ≤ 0) ∧ ((0 : ℚ) ≤ 3 → (3 : ℚ) < 4 → rnd 3 = 3 → r = 3) :=
  mod_bounds_of_exact 3 4 (by norm_num) (by simpa using rnd_int (n := 4) (by norm_num))
    (by norm_num) mod_steps_exact_three_four

/-- Counterexample to C18 as stated, in binary32: with `x = 0.5`, `y = 0.75` and
`k = 8388608`, the sum `x + k*y = 6291456.5` is exact, its quotient by `y` rounds to
`8388609`, the product `0.75 * 8388609` ties to `6291457`, and `mod(x + k*y, y) = -0.5`
while `mod(x, y) = 0.5`. -/
theorem mod_periodic_counterexample :
    rnd (1 / 2) = 1 / 2 ∧ rnd (3 / 4) = 3 / 4 ∧ rnd 8388608 = 8388608 ∧
    fin (1 / 2) + fin 8388608 * fin (3 / 4) = fin (12582913 / 2) ∧
    mod (fin (1 / 2) + fin 8388608 * fin (3 / 4)) (fin (3 / 4)) = fin (-(1 / 2)) ∧
    mod (fin (1 / 2)) (fin (3 / 4)) = fin (1 / 2) := by
  have hx : rnd (1 / 2) = 1 / 2 := by
    simpa using rnd_dyadic 1 1 (by norm_num) (by norm_num)
  have hy : rnd (3 / 4) = 3 / 4 := by
    simpa using rnd_dyadic 3 2 (by norm_num) (by norm_num)
  have hk : rnd 8388608 = 8388608 := by
    simpa using rnd_int (n := 8388608) (by norm_num)
  have hky : rnd (8388608 * (3 / 4)) = 6291456 := by
    have e : (8388608 * (3 / 4) : ℚ) = ((6291456 : ℤ) : ℚ) := by norm_num
    rw [e]; simpa using rnd_int (n := 6291456) (by norm_num)
  have hz : rnd (1 / 2 + 6291456) = 12582913 / 2 := by
    have e : (1 / 2 + 6291456 : ℚ) = ((12582913 : ℤ) : ℚ) / 2 ^ 1 := by norm_num
    rw [e, rnd_dyadic 12582913 1 (by norm_num) (by norm_num)]
    norm_num
  have hsum : fin (1 / 2) + fin 8388608 * fin (3 / 4) = fin (12582913 / 2) := by
    rw [fin_mul_fin, ofRat_eval hky (by norm_num) (by norm_num), fin_add_fin,
      ofRat_eval hz (by norm_num) (by norm_num)]
  have hq : rnd (12582913 / 2 / (3 / 4)) = 8388609 := by
    rw [rnd_eval 23 8388609 (by norm_num) (by norm_num) (by norm_num) (by norm_num)
      (by norm_num)]
    norm_num
  have hp : rnd (3 / 4 * ((8388609 : ℤ) : ℚ)) = 6291457 := by
    rw [rnd_eval_tie 22 12582914 (by norm_num) (by norm_num) (by norm_num) (by norm_num)
      (by decide)]
    norm_num
  have hs : rnd (12582913 / 2 - 6291457) = -(1 / 2) := by
    have e : (12582913 / 2 - 6291457 : ℚ) = ((-1 : ℤ) : ℚ) / 2 ^ 1 := by norm_num
    rw [e, rnd_dyadic (-1) 1 (by norm_num) (by norm_num)]
    norm_num
  have hq2 : rnd (1 / 2 / (3 / 4)) = 11184811 / 16777216 := by
    rw [rnd_eval (-1) 11184811 (by norm_num) (by norm_num) (by norm_num) (by norm_num)
      (by norm_num)]
    norm_num
  have hp2 : rnd (3 / 4 * ((0 : ℤ) : ℚ)) = 0 := by simpa using rnd_zero
  have hs2 : rnd (1 / 2 - 0) = 1 / 2 := by simpa using hx
  refine ⟨hx, hy, hk, hsum, ?_, ?_⟩
  · rw [hsum]
    show fin (12582913 / 2) - fin (3 / 4) * floor (fin (12582913 / 2) / fin (3 / 4)) = _
    rw [fin_div_fin (by norm_num), ofRat_eval hq (by norm_num) (by norm_num),
      floor_fin 8388609 8388609 (by norm_num) (by norm_num), fin_mul_fin,
      ofRat_eval hp (by norm_num) (by norm_num), fin_sub_fin,
      ofRat_eval hs (by norm_num) (by norm_num)]
  · show fin (1 / 2) - fin (3 / 4) * floor (fin (1 / 2) / fin (3 / 4)) = _
    rw [fin_div_fin (by norm_num), ofRat_eval hq2 (by norm_num) (by norm_num),
      floor_fin (11184811 / 16777216) 0 (by norm_num) (by norm_num), fin_mul_fin,
      ofRat_eval hp2 (by norm_num) (by norm_num), fin_sub_fin,
      ofRat_eval hs2 (by norm_num) (by norm_num)]

/-- C18, amended: for finite `x`, `y ≠ 0` and an integer `k` such that `k*y` and
`x + k*y` are computed without rounding or overflow, if both evaluations of `mod` meet
`mod_steps_exact` (no overflow, the rounding of the quotient does not change its floor,
the product is exact), then `mod(x + k*y, y) = mod(x, y)`. -/
theorem mod_periodic_of_exact (x y : ℚ) (k : ℤ) (hy : y ≠ 0)
    (hky : rnd (k * y) = k * y) (hkyf : |(k : ℚ) * y| < 2 ^ 128)
    (hz : rnd (x + k * y) = x + k * y) (hzf : |x + k * y| < 2 ^ 128)
    (h1 : mod_steps_exact x y) (h2 : mod_steps_exact (x + k * y) y) :
    mod (fin x + fin k * fin y) (fin y) = mod (fin x) (fin y) := by
  have hsum : fin x + fin (k : ℚ) * fin y = fin (x + k * y) := by
    rw [fin_mul_fin, ofRat_of_rnd_eq hky hkyf, fin_add_fin, ofRat_of_rnd_eq hz hzf]
  rw [hsum, mod_eq_ofRat hy h1, mod_eq_ofRat hy h2]
  have hq : (x + k * y) / y = x / y + k := by
    rw [add_div, mul_div_cancel_right₀ _ hy]
  rw [hq, Int.floor_add_int]
  congr 1
  push_cast; ring

/-- The evaluation of `mod(7/2, 3)` meets `mod_steps_exact`. -/
lemma mod_steps_exact_seven_halves_three : mod_steps_exact (7 / 2) 3 := by
  have h1 : rnd 1 = 1 := by simpa using rnd_int (n := 1) (by norm_num)
  have h2 : rnd (3 / 2) = 3 / 2 := by
    simpa using rnd_dyadic 3 1 (by norm_num) (by norm_num)
  have lo : (1 : ℚ) ≤ rnd (7 / 2 / 3) := le_rnd_of_le h1 (by norm_num)
  have hi : rnd (7 / 2 / 3) ≤ 3 / 2 := rnd_le_of_le h2 (by norm_num)
  have hfl : ⌊(7 / 2 / 3 : ℚ)⌋ = 1 := by
    rw [Int.floor_eq_iff]; constructor <;> norm_num
  have hfl2 : ⌊rnd (7 / 2 / 3)⌋ = 1 := by
    rw [Int.floor_eq_iff]; constructor
    · simpa using lo
    · push_cast; linarith
  refine ⟨?_, ?_, ?_, ?_⟩
  · rw [abs_lt]; constructor <;> linarith
  · rw [hfl2, hfl]
  · rw [hfl]
    have e : (3 : ℚ) * ((1 : ℤ) : ℚ) = ((3 : ℤ) : ℚ) := by norm_num
    rw [e]; exact rnd_int (by norm_num)
  · rw [hfl]; norm_num

/-- The evaluation of `mod(1/2, 3)` meets `mod_steps_exact`. -/
lemma mod_steps_exact_half_three : mod_steps_exact (1 / 2) 3 := by
  have h2 : rnd (1 / 2) = 1 / 2 := by
    simpa using rnd_dyadic 1 1 (by norm_num) (by norm_num)
  have lo : (0 : ℚ) ≤ rnd (1 / 2 / 3) := rnd_nonneg (by norm_num)
  have hi : rnd (1 / 2 / 3) ≤ 1 / 2 := rnd_le_of_le h2 (by norm_num)
  have hfl : ⌊(1 / 2 / 3 : ℚ)⌋ = 0 := by
    rw [Int.floor_eq_iff]; constructor <;> norm_num
  have hfl2 : ⌊rnd (1 / 2 / 3)⌋ = 0 := by
    rw [Int.floor_eq_iff]; constructor
    · simpa using lo
    · push_cast; linarith
  refine ⟨?_, ?_, ?_, ?_⟩
  · rw [abs_lt]; constructor <;> linarith
  · rw [hfl2, hfl]
  · rw [hfl]; simpa using rnd_zero
  · rw [hfl]; norm_num

/-- Witness of C18, amended, at `x = 1/2`, `y = 3`, `k = 1`:
`mod(1/2 + 1*3, 3) = mod(1/2, 3)`. -/
theorem mod_periodic_of_exact_witness :
    mod (fin (1 / 2) + fin ((1 : ℤ) : ℚ) * fin 3) (fin 3) = mod (fin (1 / 2)) (fin 3) := by
  have e : (1 / 2 + ((1 : ℤ) : ℚ) * 3 : ℚ) = 7 / 2 := by norm_num
  have hs : mod_steps_exact (1 / 2 + ((1 : ℤ) : ℚ) * 3) 3 := by
    rw [e]; exact mod_steps_exact_seven_halves_three
  exact mod_periodic_of_exact (1 / 2) 3 1 (by norm_num)
    (by have := rnd_int (n := 3) (by norm_num); simpa using this) (by norm_num)
    (by rw [e]; simpa using rnd_dyadic 7 1 (by norm_num) (by norm_num))
    (by rw [e, abs_lt]; constructor <;> norm_num)
    mod_steps_exact_half_three hs


/-- A positive difference of two binary32 values is at least the least subnormal, and
so is its rounding. -/
lemma rnd_sub_pos {a b : ℚ} (ha : rnd a = a) (hb : rnd b = b) (h : 0 < a - b) :
    0 < rnd (a - b) := by
  obtain ⟨m, hm⟩ := exists_int_of_rnd_eq ha
  obtain ⟨n, hn⟩ := exists_int_of_rnd_eq hb
  have hpow : (0 : ℚ) < 2 ^ 149 := by positivity
  have hmn : (0 : ℚ) < ((m - n : ℤ) : ℚ) := by
    have e : a - b = ((m - n : ℤ) : ℚ) / 2 ^ 149 := by rw [hm, hn]; push_cast; ring
    rw [e] at h
    exact (div_pos_iff_of_pos_right hpow).mp h
  have h1 : (1 : ℤ) ≤ m - n := by
    have : (0 : ℤ) < m - n := by exact_mod_cast hmn
    omega
  have h2 : (1 : ℚ) / 2 ^ 149 ≤ a - b := by
    rw [hm, hn]
    have : ((1 : ℤ) : ℚ) ≤ ((m - n : ℤ) : ℚ) := by exact_mod_cast h1
    push_cast at this
    rw [div_le_iff₀ hpow]
    have e : ((m : ℚ) / 2 ^ 149 - n / 2 ^ 149) * 2 ^ 149 = m - n := by field_simp
    rw [e]; linarith
  have hone : rnd ((1 : ℚ) / 2 ^ 149) = 1 / 2 ^ 149 := by
    simpa using rnd_dyadic 1 149 (by norm_num) (by norm_num)
  have h3 := le_rnd_of_le hone h2
  have h4 : (0 : ℚ) < 1 / 2 ^ 149 := by positivity
  linarith

/-- Counterexample to C14 as stated, in binary32: at `x = -4`, `y = 4` every step is
exact and the floored modulo and the truncated remainder are both `0`. -/
theorem mod_trunc_rem_counterexample :
    rnd (-4) = -4 ∧ rnd 4 = 4 ∧ (-4 : ℚ) < 0 ∧ (0 : ℚ) < 4 ∧
    mod (fin (-4)) (fin 4) = fin 0 ∧ trunc_rem (fin (-4)) (fin 4) = fin 0 := by
  have hx : rnd (-4) = -4 := by simpa using rnd_int (n := -4) (by norm_num)
  have hy : rnd 4 = 4 := by simpa using rnd_int (n := 4) (by norm_num)
  have hq : rnd (-4 / 4) = -1 := by
    have e : (-4 / 4 : ℚ) = ((-1 : ℤ) : ℚ) := by norm_num
    rw [e]; simpa using rnd_int (n := -1) (by norm_num)
  have hp : rnd (4 * ((-1 : ℤ) : ℚ)) = -4 := by
    have e : (4 : ℚ) * ((-1 : ℤ) : ℚ) = ((-4 : ℤ) : ℚ) := by norm_num
    rw [e]; simpa using rnd_int (n := -4) (by norm_num)
  have hs : rnd (-4 - -4) = 0 := by simpa using rnd_zero
  have ht : itrunc (-1) = -1 := by
    unfold itrunc
    rw [if_neg (by norm_num)]
    have : (-1 : ℚ) = ((-1 : ℤ) : ℚ) := by norm_num
    rw [this, Int.ceil_intCast]
  refine ⟨hx, hy, by norm_num, by norm_num, ?_, ?_⟩
  · show fin (-4) - fin 4 * floor (fin (-4) / fin 4) = _
    rw [fin_div_fin (by norm_num), ofRat_eval hq (by norm_num) (by norm_num),
      floor_fin (-1) (-1) (by norm_num) (by norm_num), fin_mul_fin,
      ofRat_eval hp (by norm_num) (by norm_num), fin_sub_fin,
      ofRat_eval hs (by norm_num) (by norm_num)]
  · show fin (-4) - fin 4 * trunc (fin (-4) / fin 4) = _
    rw [fin_div_fin (by norm_num), ofRat_eval hq (by norm_num) (by norm_num),
      trunc_fin (-1) (-1) ht, fin_mul_fin,
      ofRat_eval hp (by norm_num) (by norm_num), fin_sub_fin,
      ofRat_eval hs (by norm_num) (by norm_num)]

/-- C14, amended: for binary32 `x < 0` and `y > 0`, when both evaluations meet
`mod_steps_exact` and `trunc_steps_exact` (no overflow, the rounding of the quotient
changes neither its floor nor its truncation, the products are exact): if `x` is not an
integer multiple of `y`, the floored modulo is positive and the truncated remainder is
negative; if `x` is an integer multiple of `y`, both are zero. -/
theorem mod_trunc_rem_sign_of_exact (x y : ℚ) (hx : x < 0) (hy : 0 < y)
    (hxr : rnd x = x) (hyr : rnd y = y) (hyf : |y| < 2 ^ 128)
    (hm : mod_steps_exact x y) (ht : trunc_steps_exact x y) :
    ∃ r t : ℚ, mod (fin x) (fin y) = fin r ∧ trunc_rem (fin x) (fin y) = fin t ∧
      ((∀ k : ℤ, x ≠ k * y) → 0 < r ∧ t < 0) ∧
      ((∃ k : ℤ, x = k * y) → r = 0 ∧ t = 0) := by
  have hb := abs_lt.mp hyf
  have hy0 : y ≠ 0 := hy.ne'
  have hq : ¬ (0 ≤ x / y) := not_le.mpr (div_neg_of_neg_of_pos hx hy)
  have hit : itrunc (x / y) = ⌈x / y⌉ := by unfold itrunc; rw [if_neg hq]
  have hxy : y * (x / y) = x := mul_div_cancel₀ x hy0
  have hnegy : rnd (-y) = -y := by rw [rnd_neg, hyr]
  -- the exact remainders and their ranges
  have hem := exact_mod_pos x hy
  have hc1 : x / y ≤ (⌈x / y⌉ : ℚ) := Int.le_ceil _
  have hc2 : (⌈x / y⌉ : ℚ) < x / y + 1 := Int.ceil_lt_add_one _
  have het1 : -y ≤ x - y * ⌈x / y⌉ := by
    have := mul_lt_mul_of_pos_left hc2 hy
    nlinarith
  have het2 : x - y * ⌈x / y⌉ ≤ 0 := by
    have := mul_le_mul_of_nonneg_left hc1 hy.le
    linarith
  rw [mod_eq_ofRat hy0 hm, trunc_rem_eq_ofRat hy0 ht, hit]
  obtain ⟨hr1, hr2, hr3⟩ := ofRat_between rnd_zero hyr hem.1 hem.2.le (by norm_num) hb.2
  obtain ⟨ht1, ht2, ht3⟩ :=
    ofRat_between hnegy rnd_zero het1 het2 (by linarith) (by norm_num)
  refine ⟨_, _, hr1, ht1, ?_, ?_⟩
  · intro hk
    have hne : ∀ k : ℤ, x / y ≠ k := by
      intro k h
      apply hk k
      rw [← h, div_mul_cancel₀ x hy0]
    have hf : ((⌊x / y⌋ : ℤ) : ℚ) < x / y :=
      lt_of_le_of_ne (Int.floor_le _) (fun h => hne _ h.symm)
    have hc : x / y < ((⌈x / y⌉ : ℤ) : ℚ) := lt_of_le_of_ne (Int.le_ceil _) (hne _)
    have hpos : 0 < x - y * ⌊x / y⌋ := by
      have := mul_lt_mul_of_pos_left hf hy
      linarith
    have hneg : 0 < y * ⌈x / y⌉ - x := by
      have := mul_lt_mul_of_pos_left hc hy
      linarith
    have hp1 := rnd_sub_pos hxr hm.2.2.1 hpos
    have hp2 : 0 < rnd (y * ⌈x / y⌉ - x) := by
      have := ht.2.2.1
      rw [hit] at this
      exact rnd_sub_pos this hxr hneg
    have e : x - y * ⌈x / y⌉ = -(y * ⌈x / y⌉ - x) := by ring
    refine ⟨hp1, ?_⟩
    rw [e, rnd_neg]; linarith
  · rintro ⟨k, hk⟩
    have hqk : x / y = (k : ℚ) := by rw [hk, mul_div_cancel_right₀ _ hy0]
    rw [hqk, Int.floor_intCast, Int.ceil_intCast, hk]
    have e : (k : ℚ) * y - y * k = 0 := by ring
    rw [e]
    exact ⟨rnd_zero, rnd_zero⟩

/-- The evaluation of the truncated remainder of `-7` by `3` meets
`trunc_steps_exact`: the quotient `-7/3` is rounded, its truncation `-2` is unchanged,
and the product `-6` is exact. -/
lemma trunc_steps_exact_neg_seven_three : trunc_steps_exact (-7) 3 := by
  have h1 : rnd (-5 / 2) = -5 / 2 := by
    simpa using rnd_dyadic (-5) 1 (by norm_num) (by norm_num)
  have h2 : rnd (-9 / 4) = -9 / 4 := by
    simpa using rnd_dyadic (-9) 2 (by norm_num) (by norm_num)
  have lo : (-5 / 2 : ℚ) ≤ rnd (-7 / 3) := le_rnd_of_le h1 (by norm_num)
  have hi : rnd (-7 / 3) ≤ -9 / 4 := rnd_le_of_le h2 (by norm_num)
  have hc : ⌈(-7 / 3 : ℚ)⌉ = -2 := by
    rw [Int.ceil_eq_iff]; constructor <;> norm_num
  have hc2 : ⌈rnd (-7 / 3)⌉ = -2 := by
    rw [Int.ceil_eq_iff]; constructor
    · push_cast; linarith
    · push_cast; linarith
  have ht : itrunc (-7 / 3) = -2 := by
    unfold itrunc; rw [if_neg (by norm_num), hc]
  have ht2 : itrunc (rnd (-7 / 3)) = -2 := by
    unfold itrunc; rw [if_neg (by linarith), hc2]
  refine ⟨?_, ?_, ?_, ?_⟩
  · rw [abs_lt]; constructor <;> linarith
  · rw [ht2, ht]
  · rw [ht]
    have e : (3 : ℚ) * ((-2 : ℤ) : ℚ) = ((-6 : ℤ) : ℚ) := by norm_num
    rw [e]; exact rnd_int (by norm_num)
  · rw [ht]; norm_num

/-- Witness of C14, amended, at `x = -7`, `y = 3`. -/
theorem mod_trunc_rem_sign_of_exact_witness :
    ∃ r t : ℚ, mod (fin (-7)) (fin 3) = fin r ∧ trunc_rem (fin (-7)) (fin 3) = fin t ∧
      ((∀ k : ℤ, (-7 : ℚ) ≠ k * 3) → 0 < r ∧ t < 0) ∧
      ((∃ k : ℤ, (-7 : ℚ) = k * 3) → r = 0 ∧ t = 0) :=
  mod_trunc_rem_sign_of_exact (-7) 3 (by norm_num) (by norm_num)
    (by simpa using rnd_int (n := -7) (by norm_num))
    (by simpa using rnd_int (n := 3) (by norm_num)) (by norm_num)
    mod_steps_exact_neg_seven_three trunc_steps_exact_neg_seven_three

end F32

/-! ## The hash in binary32 -/

namespace F32

lemma exists_of_isFinite {x : F32} (h : IsFinite x) : ∃ q : ℚ, x = fin q := by
  cases x with
  | fin q => exact ⟨q, rfl⟩
  | nan => exact absurd h (by simp [IsFinite])
  | pinf => exact absurd h (by simp [IsFinite])
  | ninf => exact absurd h (by simp [IsFinite])

lemma isFinite_fin (q : ℚ) : IsFinite (fin q) := trivial

lemma rnd_one : rnd 1 = 1 := by simpa using rnd_int (n := 1) (by norm_num)

lemma rnd_neg_one : rnd (-1) = -1 := by simpa using rnd_int (n := -1) (by norm_num)

lemma rnd_two_pow (j : ℕ) (hj : j ≤ 127) : rnd ((2 : ℚ) ^ j) = 2 ^ j := by
  have h := rnd_grid 1 (j : ℤ) (by omega) (by norm_num)
  rw [zpow_natCast] at h
  simpa using h

/-- The largest binary32 value below one, `1 - 2^-24`. -/
lemma rnd_pred_one : rnd (1 - 1 / 2 ^ 24) = 1 - 1 / 2 ^ 24 := by
  have h := rnd_dyadic 16777215 24 (by norm_num) (by norm_num)
  have e : ((16777215 : ℤ) : ℚ) / 2 ^ 24 = 1 - 1 / 2 ^ 24 := by norm_num
  rwa [e] at h

lemma rnd_min {a b : ℚ} (ha : rnd a = a) (hb : rnd b = b) : rnd (min a b) = min a b := by
  rcases min_choice a b with h | h <;> rw [h] <;> assumption

/-- The fractional part of a finite value is a binary32 value in `[0, 1 - 2^-24]`. -/
lemma fract_fin (t : ℚ) :
    ∃ r : ℚ, fract (fin t) = fin r ∧ 0 ≤ r ∧ r ≤ 1 - 1 / 2 ^ 24 ∧ rnd r = r := by
  have h1 : (0 : ℚ) ≤ t - ⌊t⌋ := by linarith [Int.floor_le t]
  have h2 : t - ⌊t⌋ ≤ 1 := by linarith [Int.lt_floor_add_one t]
  obtain ⟨e, lo, _⟩ := ofRat_between rnd_zero rnd_one h1 h2 (by norm_num) (by norm_num)
  refine ⟨min (rnd (t - ⌊t⌋)) (1 - 1 / 2 ^ 24), ?_, ?_, min_le_right _ _, ?_⟩
  · show clamp_below_one (fin t - fin ((⌊t⌋ : ℤ) : ℚ)) = _
    rw [fin_sub_fin, e]
    rfl
  · exact le_min lo (by norm_num)
  · exact rnd_min (rnd_rnd _) rnd_pred_one

lemma fract_nan : fract nan = nan := rfl

/-- A literal between two powers of two is a finite value between them. -/
lemma lit_between {q : ℚ} (i j : ℕ) (hj : j ≤ 127) (hi : i ≤ j) (h1 : (2 : ℚ) ^ i ≤ q)
    (h2 : q ≤ 2 ^ j) : lit q = fin (rnd q) ∧ 2 ^ i ≤ rnd q ∧ rnd q ≤ 2 ^ j := by
  have hpow : (2 : ℚ) ^ j < 2 ^ 128 := pow_lt_pow_right₀ (by norm_num) (by omega)
  have hpos : (0 : ℚ) < 2 ^ i := by positivity
  exact ofRat_between (rnd_two_pow i (by omega)) (rnd_two_pow j hj) h1 h2
    (by linarith [show (0 : ℚ) < 2 ^ 128 by positivity]) hpow

/-- Counterexample to C4 as stated, in binary32: at the finite `p = (2^127, 0)` the
product `2^127 * 12.9898` overflows, the dot product is `+∞`, its sine is NaN and
`hash(p)` is NaN, whatever the library sine is on finite values. -/
theorem hash_range_counterexample :
    rnd (2 ^ 127) = 2 ^ 127 ∧ (2 : ℚ) ^ 127 < 2 ^ 128 ∧
    ∀ s : ℚ → ℚ, hash s ⟨fin (2 ^ 127), fin 0⟩ = nan ∧
      ¬ ∃ r : ℚ, hash s ⟨fin (2 ^ 127), fin 0⟩ = fin r ∧ 0 ≤ r ∧ r < 1 := by
  refine ⟨rnd_two_pow 127 (le_refl _), by norm_num, fun s => ?_⟩
  obtain ⟨e1, l1, _⟩ := lit_between (q := 12.9898) 3 4 (by norm_num) (by norm_num)
    (by norm_num) (by norm_num)
  obtain ⟨e2, _, _⟩ := lit_between (q := 78.233) 6 7 (by norm_num) (by norm_num)
    (by norm_num) (by norm_num)
  have hover : fin (2 ^ 127) * fin (rnd 12.9898) = pinf := by
    rw [fin_mul_fin]
    have h130 : rnd ((2 : ℚ) ^ 130) = 2 ^ 130 := by
      have h := rnd_grid 1 130 (by norm_num) (by norm_num)
      have e : (2 : ℚ) ^ (130 : ℤ) = 2 ^ 130 := by norm_cast
      rw [e] at h
      simpa using h
    have hle : (2 : ℚ) ^ 130 ≤ 2 ^ 127 * rnd 12.9898 := by
      have : (2 : ℚ) ^ 130 = 2 ^ 127 * 2 ^ 3 := by norm_num
      rw [this]
      exact mul_le_mul_of_nonneg_left l1 (by positivity)
    have := le_rnd_of_le h130 hle
    unfold ofRat
    rw [if_pos (le_trans (by norm_num) this)]
  have hzero : fin 0 * fin (rnd 78.233) = fin 0 := by
    rw [fin_mul_fin, zero_mul, ofRat_zero]
  have hnan : hash s ⟨fin (2 ^ 127), fin 0⟩ = nan := by
    show fract (sin s (fin (2 ^ 127) * lit 12.9898 + fin 0 * lit 78.233) * lit 43758.5453)
      = nan
    rw [e1, e2, hover, hzero]
    show fract (sin s pinf * lit 43758.5453) = nan
    show fract (nan * lit 43758.5453) = nan
    rw [nan_mul, fract_nan]
  refine ⟨hnan, ?_⟩
  rintro ⟨r, hr, _⟩
  rw [hnan] at hr
  exact F32.noConfusion hr

/-- The hash is finite in `[0, 1 - 2^-24]` and a binary32 value whenever the dot
product is finite, for a sine with values in `[-1, 1]`. -/
lemma hash_fin (s : ℚ → ℚ) (hs : ∀ q : ℚ, |s q| ≤ 1) (p : vec2 F32)
    (hd : IsFinite (dot p ⟨lit 12.9898, lit 78.233⟩)) :
    ∃ r : ℚ, hash s p = fin r ∧ 0 ≤ r ∧ r ≤ 1 - 1 / 2 ^ 24 ∧ rnd r = r := by
  obtain ⟨d, hd'⟩ := exists_of_isFinite hd
  obtain ⟨ec, _, uc⟩ := lit_between (q := 43758.5453) 15 16 (by norm_num) (by norm_num)
    (by norm_num) (by norm_num)
  have hsd := abs_le.mp (hs d)
  obtain ⟨es, ls, us⟩ := ofRat_between (q := s d) rnd_neg_one rnd_one hsd.1 hsd.2
    (by norm_num) (by norm_num)
  have hc0 : (0 : ℚ) ≤ rnd 43758.5453 := by
    have := rnd_nonneg (q := 43758.5453) (by norm_num)
    exact this
  have hprod : |rnd (s d) * rnd 43758.5453| ≤ 2 ^ 16 := by
    rw [abs_mul, abs_of_nonneg hc0]
    have h1 : |rnd (s d)| ≤ 1 := abs_le.mpr ⟨ls, us⟩
    calc |rnd (s d)| * rnd 43758.5453 ≤ 1 * 2 ^ 16 :=
          mul_le_mul h1 uc hc0 (by norm_num)
      _ = 2 ^ 16 := by norm_num
  have hp := abs_le.mp hprod
  have hneg : rnd (-(2 : ℚ) ^ 16) = -2 ^ 16 := by
    rw [rnd_neg, rnd_two_pow 16 (by norm_num)]
  obtain ⟨ep, _, _⟩ := ofRat_between (q := rnd (s d) * rnd 43758.5453) hneg
    (rnd_two_pow 16 (by norm_num)) hp.1 hp.2 (by norm_num) (by norm_num)
  obtain ⟨r, hr⟩ := fract_fin (rnd (rnd (s d) * rnd 43758.5453))
  refine ⟨r, ?_, hr.2⟩
  show fract (sin s (dot p ⟨lit 12.9898, lit 78.233⟩) * lit 43758.5453) = fin r
  rw [hd']
  show fract (ofRat (s d) * lit 43758.5453) = fin r
  rw [es, ec, fin_mul_fin, ep]
  exact hr.1

/-- C4, amended: for every `p` whose dot product with `(12.9898, 78.233)` is finite (does
not overflow), and a library sine with values in `[-1, 1]`, `hash(p)` is finite and lies
in `[0, 1)`. -/
theorem hash_range_of_finite_dot (s : ℚ → ℚ) (hs : ∀ q : ℚ, |s q| ≤ 1) (p : vec2 F32)
    (hd : IsFinite (dot p ⟨lit 12.9898, lit 78.233⟩)) :
    ∃ r : ℚ, hash s p = fin r ∧ 0 ≤ r ∧ r < 1 := by
  obtain ⟨r, h1, h2, h3, _⟩ := hash_fin s hs p hd
  exact ⟨r, h1, h2, lt_of_le_of_lt h3 (by norm_num)⟩

/-- The dot product with `(12.9898, 78.233)` is finite at components of magnitude at
most `2^100`. -/
lemma dot_isFinite {a b : ℚ} (ha : |a| ≤ 2 ^ 100) (hb : |b| ≤ 2 ^ 100) :
    IsFinite (dot ⟨fin a, fin b⟩ ⟨lit 12.9898, lit 78.233⟩) := by
  obtain ⟨e1, l1, u1⟩ := lit_between (q := 12.9898) 3 4 (by norm_num) (by norm_num)
    (by norm_num) (by norm_num)
  obtain ⟨e2, l2, u2⟩ := lit_between (q := 78.233) 6 7 (by norm_num) (by norm_num)
    (by norm_num) (by norm_num)
  have hk1 : |rnd 12.9898| ≤ 2 ^ 4 := abs_le.mpr ⟨by linarith, u1⟩
  have hk2 : |rnd 78.233| ≤ 2 ^ 7 := abs_le.mpr ⟨by linarith, u2⟩
  have hm1 : |a * rnd 12.9898| ≤ 2 ^ 107 := by
    rw [abs_mul]
    calc |a| * |rnd 12.9898| ≤ 2 ^ 100 * 2 ^ 4 :=
          mul_le_mul ha hk1 (abs_nonneg _) (by positivity)
      _ ≤ 2 ^ 107 := by norm_num
  have hm2 : |b * rnd 78.233| ≤ 2 ^ 107 := by
    rw [abs_mul]
    calc |b| * |rnd 78.233| ≤ 2 ^ 100 * 2 ^ 7 :=
          mul_le_mul hb hk2 (abs_nonneg _) (by positivity)
      _ = 2 ^ 107 := by norm_num
  have hneg : ∀ j : ℕ, j ≤ 127 → rnd (-(2 : ℚ) ^ j) = -2 ^ j := by
    intro j hj; rw [rnd_neg, rnd_two_pow j hj]
  have b1 := abs_le.mp hm1
  have b2 := abs_le.mp hm2
  obtain ⟨f1, p1, q1⟩ := ofRat_between (hneg 107 (by norm_num)) (rnd_two_pow 107 (by norm_num))
    b1.1 b1.2 (by norm_num) (by norm_num)
  obtain ⟨f2, p2, q2⟩ := ofRat_between (hneg 107 (by norm_num)) (rnd_two_pow 107 (by norm_num))
    b2.1 b2.2 (by norm_num) (by norm_num)
  obtain ⟨f3, _, _⟩ := ofRat_between (q := rnd (a * rnd 12.9898) + rnd (b * rnd 78.233))
    (hneg 108 (by norm_num)) (rnd_two_pow 108 (by norm_num))
    (by norm_num at p1 p2 ⊢; linarith) (by norm_num at q1 q2 ⊢; linarith)
    (by norm_num) (by norm_num)
  show IsFinite (fin a * lit 12.9898 + fin b * lit 78.233)
  rw [e1, e2, fin_mul_fin, fin_mul_fin, f1, f2, fin_add_fin, f3]
  exact isFinite_fin _

/-- A rational function with values in `[-1, 1]`, used in the place of the sine where a
concrete one is needed. -/
lemma abs_div_one_add_sq_le (q : ℚ) : |q / (1 + q ^ 2)| ≤ 1 := by
  have hpos : (0 : ℚ) < 1 + q ^ 2 := by positivity
  rw [abs_div, abs_of_pos hpos, div_le_one hpos, abs_le]
  constructor <;> nlinarith [sq_nonneg (q - 1), sq_nonneg (q + 1)]

/-- Witness of C4, amended, at `p = (1, 2)` with the function `q / (1 + q^2)` in the
place of the sine. -/
theorem hash_range_of_finite_dot_witness :
    ∃ r : ℚ, hash (fun q => q / (1 + q ^ 2)) ⟨fin 1, fin 2⟩ = fin r ∧ 0 ≤ r ∧ r < 1 :=
  hash_range_of_finite_dot (fun q => q / (1 + q ^ 2)) abs_div_one_add_sq_le ⟨fin 1, fin 2⟩
    (dot_isFinite (by rw [abs_le]; constructor <;> norm_num)
      (by rw [abs_le]; constructor <;> norm_num))

end F32

/-! ## The interpolation weight in binary32 -/

namespace F32

lemma lit_zero : lit 0.0 = fin 0 := by
  show ofRat 0.0 = fin 0
  norm_num [ofRat_zero]

lemma lit_one : lit 1.0 = fin 1 := by
  show ofRat 1.0 = fin 1
  have := ofRat_int (n := 1) (by norm_num)
  norm_num at this ⊢
  exact this

lemma lit_two : lit 2.0 = fin 2 := by
  show ofRat 2.0 = fin 2
  have := ofRat_int (n := 2) (by norm_num)
  norm_num at this ⊢
  exact this

lemma lit_three : lit 3.0 = fin 3 := by
  show ofRat 3.0 = fin 3
  have := ofRat_int (n := 3) (by norm_num)
  norm_num at this ⊢
  exact this

lemma rnd_two : rnd 2 = 2 := by simpa using rnd_int (n := 2) (by norm_num)

lemma rnd_three : rnd 3 = 3 := by simpa using rnd_int (n := 3) (by norm_num)

/-- The steps of the binary32 weight at a finite `f` in `[0, 1]`: each intermediate
value is finite, with its range and its rounding error. -/
lemma smoothstep_steps (f : ℚ) (h0 : 0 ≤ f) (h1 : f ≤ 1) :
    smoothstep_weight (fin f) = fin (rnd (rnd (f * f) * rnd (3 - rnd (2 * f)))) ∧
    (0 ≤ rnd (f * f) ∧ rnd (f * f) ≤ 1 ∧ |rnd (f * f) - f * f| ≤ 1 / 2 ^ 25) ∧
    (0 ≤ rnd (2 * f) ∧ rnd (2 * f) ≤ 2 ∧ |rnd (2 * f) - 2 * f| ≤ 1 / 2 ^ 24) ∧
    (1 ≤ rnd (3 - rnd (2 * f)) ∧ rnd (3 - rnd (2 * f)) ≤ 3 ∧
      |rnd (3 - rnd (2 * f)) - (3 - rnd (2 * f))| ≤ 1 / 2 ^ 23) ∧
    (0 ≤ rnd (rnd (f * f) * rnd (3 - rnd (2 * f))) ∧
      rnd (rnd (f * f) * rnd (3 - rnd (2 * f))) ≤ 3 ∧
      |rnd (rnd (f * f) * rnd (3 - rnd (2 * f))) - rnd (f * f) * rnd (3 - rnd (2 * f))|
        ≤ 1 / 2 ^ 23) := by
  have hff0 : 0 ≤ f * f := mul_nonneg h0 h0
  have hff1 : f * f ≤ 1 := by nlinarith
  obtain ⟨ea, la, ua⟩ := ofRat_between rnd_zero rnd_one hff0 hff1 (by norm_num) (by norm_num)
  have erra : |rnd (f * f) - f * f| ≤ 1 / 2 ^ 25 := by
    have := rnd_error (q := f * f) (k := -1) (by norm_num)
      (by rw [abs_of_nonneg hff0]; norm_num; linarith)
    norm_num at this ⊢
    exact this
  have hg0 : 0 ≤ 2 * f := by linarith
  have hg1 : 2 * f ≤ 2 := by linarith
  obtain ⟨eg, lg, ug⟩ := ofRat_between rnd_zero rnd_two hg0 hg1 (by norm_num) (by norm_num)
  have errg : |rnd (2 * f) - 2 * f| ≤ 1 / 2 ^ 24 := by
    have := rnd_error (q := 2 * f) (k := 0) (by norm_num)
      (by rw [abs_of_nonneg hg0]; norm_num; linarith)
    norm_num at this ⊢
    exact this
  have hb0 : 1 ≤ 3 - rnd (2 * f) := by linarith
  have hb1 : 3 - rnd (2 * f) ≤ 3 := by linarith
  obtain ⟨eb, lb, ub⟩ := ofRat_between rnd_one rnd_three hb0 hb1 (by norm_num) (by norm_num)
  have errb : |rnd (3 - rnd (2 * f)) - (3 - rnd (2 * f))| ≤ 1 / 2 ^ 23 := by
    have := rnd_error (q := 3 - rnd (2 * f)) (k := 1) (by norm_num)
      (by rw [abs_of_nonneg (by linarith)]; norm_num; linarith)
    norm_num at this ⊢
    exact this
  have hw0 : 0 ≤ rnd (f * f) * rnd (3 - rnd (2 * f)) := mul_nonneg la (by linarith)
  have hw1 : rnd (f * f) * rnd (3 - rnd (2 * f)) ≤ 3 := by
    calc rnd (f * f) * rnd (3 - rnd (2 * f)) ≤ 1 * 3 :=
          mul_le_mul ua ub (by linarith) (by norm_num)
      _ = 3 := by norm_num
  obtain ⟨ew, lw, uw⟩ := ofRat_between rnd_zero rnd_three hw0 hw1 (by norm_num) (by norm_num)
  have errw : |rnd (rnd (f * f) * rnd (3 - rnd (2 * f))) -
      rnd (f * f) * rnd (3 - rnd (2 * f))| ≤ 1 / 2 ^ 23 := by
    have := rnd_error (q := rnd (f * f) * rnd (3 - rnd (2 * f))) (k := 1) (by norm_num)
      (by rw [abs_of_nonneg hw0]; norm_num; linarith)
    norm_num at this ⊢
    exact this
  refine ⟨?_, ⟨la, ua, erra⟩, ⟨lg, ug, errg⟩, ⟨lb, ub, errb⟩, ⟨lw, uw, errw⟩⟩
  show fin f * fin f * (lit 3.0 - lit 2.0 * fin f) = _
  rw [lit_three, lit_two, fin_mul_fin, ea, fin_mul_fin, eg, fin_sub_fin, eb, fin_mul_fin, ew]

/-- The binary32 weight at a finite `f` in `[0, 1]` is finite, nonnegative, a binary32
value, and within `13 * 2^-25` of the exact `f*f*(3 - 2f)`. -/
lemma smoothstep_fin (f : ℚ) (h0 : 0 ≤ f) (h1 : f ≤ 1) :
    ∃ w : ℚ, smoothstep_weight (fin f) = fin w ∧ 0 ≤ w ∧ rnd w = w ∧
      |w - f * f * (3 - 2 * f)| ≤ 13 / 2 ^ 25 := by
  obtain ⟨e, ⟨la, ua, erra⟩, ⟨lg, ug, errg⟩, ⟨lb, ub, errb⟩, ⟨lw, uw, errw⟩⟩ :=
    smoothstep_steps f h0 h1
  refine ⟨_, e, lw, rnd_rnd _, ?_⟩
  have a1 := abs_le.mp erra
  have a2 := abs_le.mp errg
  have a3 := abs_le.mp errb
  have a4 := abs_le.mp errw
  have hff0 : 0 ≤ f * f := mul_nonneg h0 h0
  have hff1 : f * f ≤ 1 := by nlinarith
  set A := rnd (f * f) with hA
  set G := rnd (2 * f) with hG
  set B := rnd (3 - G) with hB
  set W := rnd (A * B) with hW
  -- A * B - f*f*(3 - 2f) = (A - f*f) * B + f*f * (B - (3 - 2f))
  have p1 : (A - f * f) * B ≤ 1 / 2 ^ 25 * 3 :=
    mul_le_mul a1.2 ub (by linarith) (by norm_num)
  have p2 : -(1 / 2 ^ 25 * 3) ≤ (A - f * f) * B := by
    have : (f * f - A) * B ≤ 1 / 2 ^ 25 * 3 :=
      mul_le_mul (by linarith) ub (by linarith) (by norm_num)
    linarith
  have hd1 : B - (3 - 2 * f) ≤ 1 / 2 ^ 23 + 1 / 2 ^ 24 := by linarith
  have hd2 : -(1 / 2 ^ 23 + 1 / 2 ^ 24) ≤ B - (3 - 2 * f) := by linarith
  have p3 : f * f * (B - (3 - 2 * f)) ≤ 1 * (1 / 2 ^ 23 + 1 / 2 ^ 24) := by
    rcases le_total 0 (B - (3 - 2 * f)) with hs | hs
    · exact mul_le_mul hff1 hd1 hs (by norm_num)
    · have : f * f * (B - (3 - 2 * f)) ≤ 0 := mul_nonpos_of_nonneg_of_nonpos hff0 hs
      linarith [show (0 : ℚ) ≤ 1 * (1 / 2 ^ 23 + 1 / 2 ^ 24) by norm_num]
  have p4 : -(1 * (1 / 2 ^ 23 + 1 / 2 ^ 24)) ≤ f * f * (B - (3 - 2 * f)) := by
    rcases le_total 0 (B - (3 - 2 * f)) with hs | hs
    · have : 0 ≤ f * f * (B - (3 - 2 * f)) := mul_nonneg hff0 hs
      linarith [show (0 : ℚ) ≤ 1 * (1 / 2 ^ 23 + 1 / 2 ^ 24) by norm_num]
    · have : f * f * ((3 - 2 * f) - B) ≤ 1 * (1 / 2 ^ 23 + 1 / 2 ^ 24) :=
        mul_le_mul hff1 (by linarith) (by linarith) (by norm_num)
      linarith
  have key : A * B - f * f * (3 - 2 * f) = (A - f * f) * B + f * f * (B - (3 - 2 * f)) := by
    ring
  rw [abs_le]
  constructor
  · norm_num at p1 p2 p3 p4 a4 ⊢; linarith
  · norm_num at p1 p2 p3 p4 a4 ⊢; linarith

/-- The exact weight `f*f*(3 - 2f)` is non-decreasing on `[0, 1]`. -/
lemma exact_weight_mono {a b : ℚ} (ha : 0 ≤ a) (hab : a ≤ b) (hb : b ≤ 1) :
    a * a * (3 - 2 * a) ≤ b * b * (3 - 2 * b) := by
  have h : b * b * (3 - 2 * b) - a * a * (3 - 2 * a) =
      (b - a) * (3 * (a + b) - 2 * (a * a + a * b + b * b)) := by ring
  have ha1 : a ≤ 1 := hab.trans hb
  have hb0 : 0 ≤ b := ha.trans hab
  have h1 : a * a ≤ a := by nlinarith
  have h2 : b * b ≤ b := by nlinarith
  have h3 : a * b ≤ a := by nlinarith
  have h4 : a * b ≤ b := by nlinarith
  have h5 : 0 ≤ (b - a) * (3 * (a + b) - 2 * (a * a + a * b + b * b)) :=
    mul_nonneg (by linarith) (by linarith)
  linarith


/-- The body of the binary32 `noise` written out on scalars: the weights are
`smoothstep_weight` of the fractional parts of the components of `p`. -/
lemma noise_unfold (s : ℚ → ℚ) (p : vec2 F32) :
    noise s p =
      mix (mix (hash s (vfloor p + ⟨lit 0.0, lit 0.0⟩)) (hash s (vfloor p + ⟨lit 1.0, lit 0.0⟩))
            (smoothstep_weight (fract p.x)))
          (mix (hash s (vfloor p + ⟨lit 0.0, lit 1.0⟩)) (hash s (vfloor p + ⟨lit 1.0, lit 1.0⟩))
            (smoothstep_weight (fract p.x)))
          (smoothstep_weight (fract p.y)) := rfl

/-- Counterexample to C9 as stated, in binary32: the weight computed by
`f*f*(3.0 - 2.0*f)` decreases from `f = 0x1.ccccd2p-1` to the next binary32
value `f = 0x1.ccccd4p-1`: it is `0x1.f1aap-1` at the first and `0x1.f1a9fep-1` at the
second. -/
theorem smoothstep_weight_counterexample :
    rnd (15099497 / 16777216) = 15099497 / 16777216 ∧
    rnd (7549749 / 8388608) = 7549749 / 8388608 ∧
    (0 : ℚ) ≤ 15099497 / 16777216 ∧ (15099497 / 16777216 : ℚ) ≤ 7549749 / 8388608 ∧
    (7549749 / 8388608 : ℚ) ≤ 1 ∧
    smoothstep_weight (fin (15099497 / 16777216)) = fin (63701 / 65536) ∧
    smoothstep_weight (fin (7549749 / 8388608)) = fin (16307455 / 16777216) ∧
    (16307455 / 16777216 : ℚ) < 63701 / 65536 := by
  have ha : rnd (15099497 / 16777216) = 15099497 / 16777216 := by
    simpa using rnd_dyadic 15099497 24 (by norm_num) (by norm_num)
  have hb : rnd (7549749 / 8388608) = 7549749 / 8388608 := by
    simpa using rnd_dyadic 7549749 23 (by norm_num) (by norm_num)
  -- the four steps at the first input
  have a1 : rnd (15099497 / 16777216 * (15099497 / 16777216)) = 6794775 / 8388608 := by
    rw [rnd_eval (-1) 13589550 (by norm_num) (by norm_num) (by norm_num) (by norm_num)
      (by norm_num)]
    norm_num
  have a2 : rnd (2 * (15099497 / 16777216)) = 15099497 / 8388608 := by
    have e : (2 * (15099497 / 16777216) : ℚ) = ((15099497 : ℤ) : ℚ) / 2 ^ 23 := by norm_num
    rw [e, rnd_dyadic 15099497 23 (by norm_num) (by norm_num)]
    norm_num
  have a3 : rnd (3 - 15099497 / 8388608) = 10066327 / 8388608 := by
    have e : (3 - 15099497 / 8388608 : ℚ) = ((10066327 : ℤ) : ℚ) / 2 ^ 23 := by norm_num
    rw [e, rnd_dyadic 10066327 23 (by norm_num) (by norm_num)]
    norm_num
  have a4 : rnd (6794775 / 8388608 * (10066327 / 8388608)) = 63701 / 65536 := by
    rw [rnd_eval (-1) 16307456 (by norm_num) (by norm_num) (by norm_num) (by norm_num)
      (by norm_num)]
    norm_num
  -- the four steps at the second input
  have b1 : rnd (7549749 / 8388608 * (7549749 / 8388608)) = 13589551 / 16777216 := by
    rw [rnd_eval (-1) 13589551 (by norm_num) (by norm_num) (by norm_num) (by norm_num)
      (by norm_num)]
    norm_num
  have b2 : rnd (2 * (7549749 / 8388608)) = 7549749 / 4194304 := by
    have e : (2 * (7549749 / 8388608) : ℚ) = ((7549749 : ℤ) : ℚ) / 2 ^ 22 := by norm_num
    rw [e, rnd_dyadic 7549749 22 (by norm_num) (by norm_num)]
    norm_num
  have b3 : rnd (3 - 7549749 / 4194304) = 5033163 / 4194304 := by
    have e : (3 - 7549749 / 4194304 : ℚ) = ((5033163 : ℤ) : ℚ) / 2 ^ 22 := by norm_num
    rw [e, rnd_dyadic 5033163 22 (by norm_num) (by norm_num)]
    norm_num
  have b4 : rnd (13589551 / 16777216 * (5033163 / 4194304)) = 16307455 / 16777216 := by
    rw [rnd_eval (-1) 16307455 (by norm_num) (by norm_num) (by norm_num) (by norm_num)
      (by norm_num)]
    norm_num
  refine ⟨ha, hb, by norm_num, by norm_num, by norm_num, ?_, ?_, by norm_num⟩
  · rw [(smoothstep_steps _ (by norm_num) (by norm_num)).1, a1, a2, a3, a4]
  · rw [(smoothstep_steps _ (by norm_num) (by norm_num)).1, b1, b2, b3, b4]

/-- C9, amended: in binary32 the interpolation weight of `noise` is
`u(f) = f*f*(3.0 - 2.0*f)` of each fractional part; `u(0) = 0`, `u(1) = 1`,
`u(0.5) = 0.5` exactly, and `u` is non-decreasing on `[0, 1]` up to rounding: for
`0 ≤ a ≤ b ≤ 1`, `u(a) ≤ u(b) + 2^-20`. -/
theorem smoothstep_weight_binary32 :
    (∀ (s : ℚ → ℚ) (p : vec2 F32),
      noise s p =
        mix (mix (hash s (vfloor p + ⟨lit 0.0, lit 0.0⟩))
                 (hash s (vfloor p + ⟨lit 1.0, lit 0.0⟩)) (smoothstep_weight (fract p.x)))
            (mix (hash s (vfloor p + ⟨lit 0.0, lit 1.0⟩))
                 (hash s (vfloor p + ⟨lit 1.0, lit 1.0⟩)) (smoothstep_weight (fract p.x)))
            (smoothstep_weight (fract p.y))) ∧
    smoothstep_weight (fin 0) = fin 0 ∧ smoothstep_weight (fin 1) = fin 1 ∧
    smoothstep_weight (fin (1 / 2)) = fin (1 / 2) ∧
    ∀ a b : ℚ, 0 ≤ a → a ≤ b → b ≤ 1 →
      ∃ ua ub : ℚ, smoothstep_weight (fin a) = fin ua ∧ smoothstep_weight (fin b) = fin ub ∧
        ua ≤ ub + 1 / 2 ^ 20 := by
  refine ⟨fun s p => rfl, ?_, ?_, ?_, ?_⟩
  · rw [(smoothstep_steps 0 (by norm_num) (by norm_num)).1]
    simp [rnd_zero]
  · rw [(smoothstep_steps 1 (by norm_num) (by norm_num)).1]
    have e1 : rnd ((1 : ℚ) * 1) = 1 := by simpa using rnd_one
    have e2 : rnd ((2 : ℚ) * 1) = 2 := by simpa using rnd_two
    have e3 : rnd ((3 : ℚ) - 2) = 1 := by
      have : (3 : ℚ) - 2 = 1 := by norm_num
      rw [this, rnd_one]
    rw [e1, e2, e3, e1]
  · rw [(smoothstep_steps (1 / 2) (by norm_num) (by norm_num)).1]
    have e1 : rnd ((1 / 2 : ℚ) * (1 / 2)) = 1 / 4 := by
      have : ((1 / 2 : ℚ) * (1 / 2)) = ((1 : ℤ) : ℚ) / 2 ^ 2 := by norm_num
      rw [this, rnd_dyadic 1 2 (by norm_num) (by norm_num)]; norm_num
    have e2 : rnd ((2 : ℚ) * (1 / 2)) = 1 := by
      have : ((2 : ℚ) * (1 / 2)) = 1 := by norm_num
      rw [this, rnd_one]
    have e3 : rnd ((3 : ℚ) - 1) = 2 := by
      have : (3 : ℚ) - 1 = 2 := by norm_num
      rw [this, rnd_two]
    have e4 : rnd ((1 / 4 : ℚ) * 2) = 1 / 2 := by
      have : ((1 / 4 : ℚ) * 2) = ((1 : ℤ) : ℚ) / 2 ^ 1 := by norm_num
      rw [this, rnd_dyadic 1 1 (by norm_num) (by norm_num)]; norm_num
    rw [e1, e2, e3, e4]
  · intro a b ha hab hb
    obtain ⟨ua, ea, _, _, erra⟩ := smoothstep_fin a ha (hab.trans hb)
    obtain ⟨ub, eb, _, _, errb⟩ := smoothstep_fin b (ha.trans hab) hb
    refine ⟨ua, ub, ea, eb, ?_⟩
    have hm := exact_weight_mono ha hab hb
    have h1 := abs_le.mp erra
    have h2 := abs_le.mp errb
    norm_num at h1 h2 ⊢
    linarith

/-- Witness of C9, amended: the weight at `1/4` is at most the weight at `3/4` plus
`2^-20`. -/
theorem smoothstep_weight_binary32_witness :
    ∃ ua ub : ℚ, smoothstep_weight (fin (1 / 4)) = fin ua ∧
      smoothstep_weight (fin (3 / 4)) = fin ub ∧ ua ≤ ub + 1 / 2 ^ 20 :=
  smoothstep_weight_binary32.2.2.2.2 (1 / 4) (3 / 4) (by norm_num) (by norm_num)
    (by norm_num)

end F32

/-! ## The value noise in binary32 -/

namespace F32

lemma rnd_one_add_quarter_ulp : rnd (1 + 1 / 2 ^ 25) = 1 := by
  rw [rnd_eval 0 8388608 (by norm_num) (by norm_num) (by norm_num) (by norm_num)
    (by norm_num)]
  norm_num

lemma rnd_one_add_half_ulp : rnd (1 + 1 / 2 ^ 24) = 1 := by
  rw [rnd_eval_tie 0 8388608 (by norm_num) (by norm_num) (by norm_num) (by norm_num)
    (by decide)]
  norm_num

/-- A finite value of `fract` is a binary32 value in `[0, 1 - 2^-24]`. -/
lemma fract_eq_fin {x : F32} {h : ℚ} (e : fract x = fin h) :
    0 ≤ h ∧ h ≤ 1 - 1 / 2 ^ 24 ∧ rnd h = h := by
  cases x with
  | nan => exact F32.noConfusion (fract_nan.symm.trans e)
  | pinf =>
    have : fract pinf = nan := rfl
    exact F32.noConfusion (this.symm.trans e)
  | ninf =>
    have : fract ninf = nan := rfl
    exact F32.noConfusion (this.symm.trans e)
  | fin t =>
    obtain ⟨r, hr, h0, h1, h2⟩ := fract_fin t
    have : h = r := by
      have := e.symm.trans hr
      exact F32.fin.inj this
    rw [this]; exact ⟨h0, h1, h2⟩

lemma hash_eq_fin {s : ℚ → ℚ} {p : vec2 F32} {h : ℚ} (e : hash s p = fin h) :
    0 ≤ h ∧ h ≤ 1 - 1 / 2 ^ 24 ∧ rnd h = h :=
  fract_eq_fin e

/-- A binary32 value in `[1/2, 1)` is a multiple `m / 2^24` with `2^23 ≤ m < 2^24`. -/
lemma rep_half_to_one {f : ℚ} (hf : rnd f = f) (h1 : 1 / 2 ≤ f) (h2 : f < 1) :
    ∃ m : ℤ, f = m / 2 ^ 24 ∧ 2 ^ 23 ≤ m ∧ m < 2 ^ 24 := by
  have hpos : 0 < f := by linarith
  have hE : expo f = -1 :=
    expo_eq_of_normal (by norm_num) (by rw [abs_of_pos hpos]; norm_num; linarith)
      (by rw [abs_of_pos hpos]; norm_num; linarith)
  have hr : rnd f = rhe (f / 2 ^ ((-1 : ℤ) - 23)) * 2 ^ ((-1 : ℤ) - 23) := by
    unfold rnd; rw [hE]
  rw [hf] at hr
  have e24 : (2 : ℚ) ^ ((-1 : ℤ) - 23) = 1 / 2 ^ 24 := by norm_num
  rw [e24] at hr
  refine ⟨rhe (f / (1 / 2 ^ 24)), ?_, ?_, ?_⟩
  · nth_rewrite 1 [hr]; ring
  · have : ((2 ^ 23 : ℤ) : ℚ) ≤ (rhe (f / (1 / 2 ^ 24)) : ℚ) := by
      have h3 : f = (rhe (f / (1 / 2 ^ 24)) : ℚ) * (1 / 2 ^ 24) := hr
      push_cast
      nlinarith
    exact_mod_cast this
  · have : (rhe (f / (1 / 2 ^ 24)) : ℚ) < ((2 ^ 24 : ℤ) : ℚ) := by
      have h3 : f = (rhe (f / (1 / 2 ^ 24)) : ℚ) * (1 / 2 ^ 24) := hr
      push_cast
      nlinarith
    exact_mod_cast this

/-- The binary32 weight of a binary32 `f` in `[0, 1 - 2^-24]` is at most one. -/
lemma smoothstep_le_one {f : ℚ} (hf : rnd f = f) (h0 : 0 ≤ f) (h1 : f ≤ 1 - 1 / 2 ^ 24) :
    rnd (rnd (f * f) * rnd (3 - rnd (2 * f))) ≤ 1 := by
  have hf1 : f ≤ 1 := by linarith [show (0 : ℚ) ≤ 1 / 2 ^ 24 by positivity]
  obtain ⟨_, ⟨la, ua, erra⟩, ⟨lg, ug, errg⟩, ⟨lb, ub, errb⟩, _⟩ := smoothstep_steps f h0 hf1
  rcases le_total f (1 / 2) with hle | hge
  · have hq : rnd (1 / 4) = 1 / 4 := by
      simpa using rnd_dyadic 1 2 (by norm_num) (by norm_num)
    have hA : rnd (f * f) ≤ 1 / 4 := rnd_le_of_le hq (by nlinarith)
    have hprod : rnd (f * f) * rnd (3 - rnd (2 * f)) ≤ 1 := by
      calc rnd (f * f) * rnd (3 - rnd (2 * f)) ≤ 1 / 4 * 3 :=
            mul_le_mul hA ub (by linarith) (by norm_num)
        _ ≤ 1 := by norm_num
    exact rnd_le_of_le rnd_one hprod
  · have hlt : f < 1 := by linarith [show (0 : ℚ) < 1 / 2 ^ 24 by positivity]
    obtain ⟨m, hm, m1, m2⟩ := rep_half_to_one hf hge hlt
    have hG : rnd (2 * f) = 2 * f := by
      have e : 2 * f = (m : ℚ) / 2 ^ 23 := by rw [hm]; ring
      rw [e]
      exact rnd_dyadic m 23 (by norm_num) (abs_lt.mpr ⟨by omega, m2⟩)
    have hB : rnd (3 - 2 * f) = 3 - 2 * f := by
      rcases eq_or_lt_of_le m1 with heq | hgt
      · have e : 3 - 2 * f = 2 := by
          rw [hm, ← heq]; push_cast; norm_num
        rw [e]; exact rnd_two
      · have e : 3 - 2 * f = ((3 * 2 ^ 23 - m : ℤ) : ℚ) / 2 ^ 23 := by
          rw [hm]; push_cast; ring
        rw [e]
        exact rnd_dyadic _ 23 (by norm_num) (abs_lt.mpr ⟨by omega, by omega⟩)
    rw [hG, hB]
    have a1 := abs_le.mp erra
    have hu : f * f * (3 - 2 * f) ≤ 1 := by
      have h : 1 - f * f * (3 - 2 * f) = (1 - f) * (1 - f) * (1 + 2 * f) := by ring
      have h2 : 0 ≤ (1 - f) * (1 - f) * (1 + 2 * f) :=
        mul_nonneg (mul_self_nonneg _) (by linarith)
      linarith
    have h3 : 0 ≤ 3 - 2 * f := by linarith
    have h4 : 3 - 2 * f ≤ 2 := by linarith
    have hprod : rnd (f * f) * (3 - 2 * f) ≤ 1 + 1 / 2 ^ 24 := by
      have p1 : (rnd (f * f) - f * f) * (3 - 2 * f) ≤ 1 / 2 ^ 25 * 2 := by
        rcases le_total 0 (rnd (f * f) - f * f) with hs | hs
        · exact mul_le_mul a1.2 h4 h3 (by norm_num)
        · have : (rnd (f * f) - f * f) * (3 - 2 * f) ≤ 0 :=
            mul_nonpos_of_nonpos_of_nonneg hs h3
          linarith [show (0 : ℚ) ≤ 1 / 2 ^ 25 * 2 by norm_num]
      have e : rnd (f * f) * (3 - 2 * f) =
          f * f * (3 - 2 * f) + (rnd (f * f) - f * f) * (3 - 2 * f) := by ring
      rw [e]
      norm_num at p1 ⊢
      linarith
    exact le_of_le_of_eq (rnd_mono hprod) rnd_one_add_half_ulp

/-- The binary32 blend of finite values in `[0, 1]` with a weight in `[0, 1]`: the
result is a binary32 value in `[0, 1]`, within `2^-23` of the range of its two end
values. -/
lemma mix_fin {a b t : ℚ} (ha : rnd a = a) (ha0 : 0 ≤ a) (ha1 : a ≤ 1) (hb0 : 0 ≤ b)
    (hb1 : b ≤ 1) (ht0 : 0 ≤ t) (ht1 : t ≤ 1) :
    ∃ m : ℚ, mix (fin a) (fin b) (fin t) = fin m ∧ 0 ≤ m ∧ m ≤ 1 ∧ rnd m = m ∧
      min a b - 1 / 2 ^ 23 ≤ m ∧ m ≤ max a b + 1 / 2 ^ 23 := by
  -- the difference
  obtain ⟨eD, lD, uD⟩ := ofRat_between (q := b - a) rnd_neg_one rnd_one (by linarith)
    (by linarith) (by norm_num) (by norm_num)
  have errD : |rnd (b - a) - (b - a)| ≤ 1 / 2 ^ 25 := by
    have := rnd_error (q := b - a) (k := -1) (by norm_num)
      (by rw [abs_le]; constructor <;> norm_num <;> linarith)
    norm_num at this ⊢
    exact this
  have hna : rnd (-a) = -a := by rw [rnd_neg, ha]
  have hDlo : -a ≤ rnd (b - a) := le_rnd_of_le hna (by linarith)
  set D := rnd (b - a) with hDdef
  have hDrep : rnd D = D := rnd_rnd _
  -- the product
  have hDt : -1 ≤ D * t ∧ D * t ≤ 1 := by
    constructor <;> nlinarith
  obtain ⟨eP, lP, uP⟩ := ofRat_between (q := D * t) rnd_neg_one rnd_one hDt.1 hDt.2
    (by norm_num) (by norm_num)
  have errP : |rnd (D * t) - D * t| ≤ 1 / 2 ^ 25 := by
    have := rnd_error (q := D * t) (k := -1) (by norm_num)
      (by rw [abs_le]; constructor <;> norm_num <;> linarith [hDt.1, hDt.2])
    norm_num at this ⊢
    exact this
  have hPlo : -a ≤ rnd (D * t) := by
    rcases le_total 0 D with hs | hs
    · have : 0 ≤ rnd (D * t) := rnd_nonneg (mul_nonneg hs ht0)
      linarith
    · have h1 : D ≤ D * t := by nlinarith
      have := le_rnd_of_le hDrep h1
      linarith
  have d1 := abs_le.mp errD
  have hPhi : a + rnd (D * t) ≤ 1 + 1 / 2 ^ 25 := by
    rcases le_total 0 D with hs | hs
    · have h1 : D * t ≤ D := by nlinarith
      have := rnd_le_of_le hDrep h1
      linarith
    · have : rnd (D * t) ≤ 0 := rnd_nonpos (mul_nonpos_of_nonpos_of_nonneg hs ht0)
      linarith [show (0 : ℚ) ≤ 1 / 2 ^ 25 by positivity]
  set P := rnd (D * t) with hPdef
  -- the sum
  have hs0 : 0 ≤ a + P := by linarith
  have hs2 : a + P ≤ 2 := by linarith [show (1 : ℚ) / 2 ^ 25 ≤ 1 by norm_num]
  obtain ⟨eM, lM, _⟩ := ofRat_between (q := a + P) rnd_zero rnd_two hs0 hs2
    (by norm_num) (by norm_num)
  have hM1 : rnd (a + P) ≤ 1 := le_of_le_of_eq (rnd_mono hPhi) rnd_one_add_quarter_ulp
  have errM : |rnd (a + P) - (a + P)| ≤ 1 / 2 ^ 24 := by
    have := rnd_error (q := a + P) (k := 0) (by norm_num)
      (by rw [abs_of_nonneg hs0]; norm_num; linarith)
    norm_num at this ⊢
    exact this
  have hex := SumiCore.mix_between a b ht0 ht1
  have hexeq : SumiCore.mix a b t = a + t * (b - a) := rfl
  rw [hexeq] at hex
  have p1 := abs_le.mp errP
  have m1 := abs_le.mp errM
  have q1 : (D - (b - a)) * t ≤ 1 / 2 ^ 25 := by
    rcases le_total 0 (D - (b - a)) with hs | hs
    · calc (D - (b - a)) * t ≤ 1 / 2 ^ 25 * 1 := mul_le_mul d1.2 ht1 ht0 (by norm_num)
        _ = 1 / 2 ^ 25 := by norm_num
    · have : (D - (b - a)) * t ≤ 0 := mul_nonpos_of_nonpos_of_nonneg hs ht0
      linarith [show (0 : ℚ) ≤ 1 / 2 ^ 25 by norm_num]
  have q2 : -(1 / 2 ^ 25) ≤ (D - (b - a)) * t := by
    rcases le_total 0 (D - (b - a)) with hs | hs
    · have : 0 ≤ (D - (b - a)) * t := mul_nonneg hs ht0
      linarith [show (0 : ℚ) ≤ 1 / 2 ^ 25 by norm_num]
    · have : ((b - a) - D) * t ≤ 1 / 2 ^ 25 * 1 :=
        mul_le_mul (by linarith) ht1 ht0 (by norm_num)
      linarith
  have key : a + D * t = a + t * (b - a) + (D - (b - a)) * t := by ring
  have hlow : a + t * (b - a) - 1 / 2 ^ 23 ≤ rnd (a + P) := by
    norm_num at p1 m1 q1 q2 ⊢
    linarith [p1.1, p1.2, m1.1, m1.2]
  have hupp : rnd (a + P) ≤ a + t * (b - a) + 1 / 2 ^ 23 := by
    norm_num at p1 m1 q1 q2 ⊢
    linarith [p1.1, p1.2, m1.1, m1.2]
  refine ⟨rnd (a + P), ?_, lM, hM1, rnd_rnd _, by linarith [hex.1], by linarith [hex.2]⟩
  show fin a + (fin b - fin a) * fin t = _
  rw [fin_sub_fin, eD, fin_mul_fin, eP, fin_add_fin, eM]


lemma mul_comm' (x y : F32) : x * y = y * x := by
  show mul x y = mul y x
  cases x <;> cases y <;> simp [mul, mul_comm]

/-- At a first component `2^127` and a nonnegative second component the dot product
overflows to `+∞` and the hash is NaN. -/
lemma hash_nan_of_overflow (s : ℚ → ℚ) (b : ℚ) (hb : 0 ≤ b) :
    hash s ⟨fin (2 ^ 127), fin b⟩ = nan := by
  obtain ⟨e1, l1, _⟩ := lit_between (q := 12.9898) 3 4 (by norm_num) (by norm_num)
    (by norm_num) (by norm_num)
  obtain ⟨e2, l2, _⟩ := lit_between (q := 78.233) 6 7 (by norm_num) (by norm_num)
    (by norm_num) (by norm_num)
  have hover : fin (2 ^ 127) * fin (rnd 12.9898) = pinf := by
    rw [fin_mul_fin]
    have h130 : rnd ((2 : ℚ) ^ 130) = 2 ^ 130 := by
      have h := rnd_grid 1 130 (by norm_num) (by norm_num)
      have e : (2 : ℚ) ^ (130 : ℤ) = 2 ^ 130 := by norm_cast
      rw [e] at h
      simpa using h
    have hle : (2 : ℚ) ^ 130 ≤ 2 ^ 127 * rnd 12.9898 := by
      have : (2 : ℚ) ^ 130 = 2 ^ 127 * 2 ^ 3 := by norm_num
      rw [this]
      exact mul_le_mul_of_nonneg_left l1 (by positivity)
    have := le_rnd_of_le h130 hle
    unfold ofRat
    rw [if_pos (le_trans (by norm_num) this)]
  have hsecond : pinf + fin b * fin (rnd 78.233) = pinf := by
    rw [fin_mul_fin]
    have hnn : 0 ≤ rnd (b * rnd 78.233) :=
      rnd_nonneg (mul_nonneg hb (by linarith [show (0 : ℚ) ≤ 2 ^ 6 by positivity]))
    unfold ofRat
    split_ifs with h1 h2
    · rfl
    · exact absurd h2 (not_le.mpr (by linarith [show (0 : ℚ) < 2 ^ 128 by positivity]))
    · rfl
  show fract (sin s (fin (2 ^ 127) * lit 12.9898 + fin b * lit 78.233) * lit 43758.5453)
    = nan
  rw [e1, e2, hover, hsecond]
  show fract (nan * lit 43758.5453) = nan
  rw [nan_mul, fract_nan]

lemma mix_nan (b t : F32) : mix nan b t = nan := by
  show nan + (b - nan) * t = nan
  rw [nan_add]

/-- The first corner of the cell of `p = (2^127, b)`, for `b` zero or `2^127`, is `p`
itself. -/
lemma corner_zero_of_big (b : ℚ) (hb : b = 0 ∨ b = 2 ^ 127) :
    vfloor ⟨fin (2 ^ 127), fin b⟩ + ⟨lit 0.0, lit 0.0⟩ = ⟨fin (2 ^ 127), fin b⟩ := by
  have hfl : (⌊((2 : ℚ) ^ 127)⌋ : ℤ) = 2 ^ 127 := by
    have h := Int.floor_intCast (α := ℚ) ((2 : ℤ) ^ 127)
    rwa [Int.cast_pow, Int.cast_ofNat] at h
  have hbig : floor (fin (2 ^ 127)) + lit 0.0 = fin (2 ^ 127) := by
    show fin ((⌊((2 : ℚ) ^ 127)⌋ : ℤ) : ℚ) + lit 0.0 = fin (2 ^ 127)
    rw [hfl, lit_zero, fin_add_fin, Int.cast_pow, Int.cast_ofNat, add_zero]
    exact ofRat_of_rnd_eq (rnd_two_pow 127 (le_refl _))
      (by rw [abs_lt]; constructor <;> norm_num)
  have hsmall : floor (fin 0) + lit 0.0 = fin 0 := by
    rw [floor_fin 0 0 (by norm_num) (by norm_num), lit_zero, fin_add_fin]
    norm_num [ofRat_zero]
  show (⟨floor (fin (2 ^ 127)) + lit 0.0, floor (fin b) + lit 0.0⟩ : vec2 F32) = _
  rcases hb with hb | hb
  · rw [hb, hbig, hsmall]
  · rw [hb, hbig]

lemma noise_nan_of_big (s : ℚ → ℚ) (b : ℚ) (hb : b = 0 ∨ b = 2 ^ 127) :
    noise s ⟨fin (2 ^ 127), fin b⟩ = nan := by
  have hb0 : 0 ≤ b := by
    rcases hb with hb | hb <;> rw [hb]
    positivity
  rw [noise_unfold, corner_zero_of_big b hb, hash_nan_of_overflow s b hb0, mix_nan, mix_nan]

/-- Counterexample to C6 as stated, in binary32: at the finite `p = (2^127, 0)` the dot
product of the first corner overflows, its hash is NaN and `noise(p)` is NaN, whatever
the library sine is on finite values. -/
theorem noise_range_counterexample :
    rnd (2 ^ 127) = 2 ^ 127 ∧ (2 : ℚ) ^ 127 < 2 ^ 128 ∧
    ∀ s : ℚ → ℚ, noise s ⟨fin (2 ^ 127), fin 0⟩ = nan ∧
      ¬ ∃ r : ℚ, noise s ⟨fin (2 ^ 127), fin 0⟩ = fin r ∧ 0 ≤ r ∧ r ≤ 1 := by
  refine ⟨rnd_two_pow 127 (le_refl _), by norm_num, fun s => ?_⟩
  have h := noise_nan_of_big s 0 (Or.inl rfl)
  refine ⟨h, ?_⟩
  rintro ⟨r, hr, _⟩
  rw [h] at hr
  exact F32.noConfusion hr

/-- The binary32 `noise` at a finite `p` whose four corner hashes are finite: it is a
finite value in `[0, 1]`, within `2^-22` of the range of the four corner hashes. -/
lemma noise_core (s : ℚ → ℚ) (a b h00 h10 h01 h11 : ℚ)
    (e00 : hash s (vfloor ⟨fin a, fin b⟩ + ⟨lit 0.0, lit 0.0⟩) = fin h00)
    (e10 : hash s (vfloor ⟨fin a, fin b⟩ + ⟨lit 1.0, lit 0.0⟩) = fin h10)
    (e01 : hash s (vfloor ⟨fin a, fin b⟩ + ⟨lit 0.0, lit 1.0⟩) = fin h01)
    (e11 : hash s (vfloor ⟨fin a, fin b⟩ + ⟨lit 1.0, lit 1.0⟩) = fin h11) :
    ∃ r : ℚ, noise s ⟨fin a, fin b⟩ = fin r ∧ 0 ≤ r ∧ r ≤ 1 ∧
      min (min h00 h10) (min h01 h11) - 1 / 2 ^ 22 ≤ r ∧
      r ≤ max (max h00 h10) (max h01 h11) + 1 / 2 ^ 22 := by
  have hc : (1 : ℚ) - 1 / 2 ^ 24 ≤ 1 := by norm_num
  obtain ⟨fx, efx, fx0, fx1, fxr⟩ := fract_fin a
  obtain ⟨fy, efy, fy0, fy1, fyr⟩ := fract_fin b
  obtain ⟨ewx, _, _, _, ⟨wx0, _, _⟩⟩ := smoothstep_steps fx fx0 (fx1.trans hc)
  obtain ⟨ewy, _, _, _, ⟨wy0, _, _⟩⟩ := smoothstep_steps fy fy0 (fy1.trans hc)
  have wx1 := smoothstep_le_one fxr fx0 fx1
  have wy1 := smoothstep_le_one fyr fy0 fy1
  obtain ⟨a0, a1, ar⟩ := hash_eq_fin e00
  obtain ⟨b0, b1, _⟩ := hash_eq_fin e10
  obtain ⟨c0, c1, cr⟩ := hash_eq_fin e01
  obtain ⟨d0, d1, _⟩ := hash_eq_fin e11
  obtain ⟨A, eA, A0, A1, Ar, Al, Au⟩ :=
    mix_fin ar a0 (a1.trans hc) b0 (b1.trans hc) wx0 wx1
  obtain ⟨B, eB, B0, B1, _, Bl, Bu⟩ :=
    mix_fin cr c0 (c1.trans hc) d0 (d1.trans hc) wx0 wx1
  obtain ⟨R, eR, R0, R1, _, Rl, Ru⟩ := mix_fin Ar A0 A1 B0 B1 wy0 wy1
  refine ⟨R, ?_, R0, R1, ?_, ?_⟩
  · rw [noise_unfold]
    show mix (mix (hash s (vfloor ⟨fin a, fin b⟩ + ⟨lit 0.0, lit 0.0⟩))
                  (hash s (vfloor ⟨fin a, fin b⟩ + ⟨lit 1.0, lit 0.0⟩))
                  (smoothstep_weight (fract (fin a))))
             (mix (hash s (vfloor ⟨fin a, fin b⟩ + ⟨lit 0.0, lit 1.0⟩))
                  (hash s (vfloor ⟨fin a, fin b⟩ + ⟨lit 1.0, lit 1.0⟩))
                  (smoothstep_weight (fract (fin a))))
             (smoothstep_weight (fract (fin b))) = fin R
    rw [e00, e10, e01, e11, efx, efy, ewx, ewy, eA, eB, eR]
  · have h1 : min (min h00 h10) (min h01 h11) - 1 / 2 ^ 23 ≤ A :=
      le_trans (sub_le_sub_right (min_le_left _ _) _) Al
    have h2 : min (min h00 h10) (min h01 h11) - 1 / 2 ^ 23 ≤ B :=
      le_trans (sub_le_sub_right (min_le_right _ _) _) Bl
    have h3 := le_min h1 h2
    have e : (1 : ℚ) / 2 ^ 22 = 1 / 2 ^ 23 + 1 / 2 ^ 23 := by norm_num
    rw [e]
    linarith
  · have h1 : A ≤ max (max h00 h10) (max h01 h11) + 1 / 2 ^ 23 :=
      le_trans Au (add_le_add_right (le_max_left _ _) _)
    have h2 : B ≤ max (max h00 h10) (max h01 h11) + 1 / 2 ^ 23 :=
      le_trans Bu (add_le_add_right (le_max_right _ _) _)
    have h3 := max_le h1 h2
    have e : (1 : ℚ) / 2 ^ 22 = 1 / 2 ^ 23 + 1 / 2 ^ 23 := by norm_num
    rw [e]
    linarith

/-- C6, amended: for every finite `p` whose four corner hashes are finite (no dot
product overflows), `noise(p)` is finite and lies in `[0, 1]`. -/
theorem noise_range_of_finite_corners (s : ℚ → ℚ) (a b : ℚ)
    (c00 : IsFinite (hash s (vfloor ⟨fin a, fin b⟩ + ⟨lit 0.0, lit 0.0⟩)))
    (c10 : IsFinite (hash s (vfloor ⟨fin a, fin b⟩ + ⟨lit 1.0, lit 0.0⟩)))
    (c01 : IsFinite (hash s (vfloor ⟨fin a, fin b⟩ + ⟨lit 0.0, lit 1.0⟩)))
    (c11 : IsFinite (hash s (vfloor ⟨fin a, fin b⟩ + ⟨lit 1.0, lit 1.0⟩))) :
    ∃ r : ℚ, noise s ⟨fin a, fin b⟩ = fin r ∧ 0 ≤ r ∧ r ≤ 1 := by
  obtain ⟨h00, e00⟩ := exists_of_isFinite c00
  obtain ⟨h10, e10⟩ := exists_of_isFinite c10
  obtain ⟨h01, e01⟩ := exists_of_isFinite c01
  obtain ⟨h11, e11⟩ := exists_of_isFinite c11
  obtain ⟨r, hr, r0, r1, _⟩ := noise_core s a b h00 h10 h01 h11 e00 e10 e01 e11
  exact ⟨r, hr, r0, r1⟩


/-- A corner coordinate `floor(a) + i` with `|a| ≤ 2^99` and `i` zero or one is finite,
of magnitude at most `2^100`. -/
lemma corner_coord (a i : ℚ) (ha : |a| ≤ 2 ^ 99) (hi : i = 0 ∨ i = 1) :
    ∃ c : ℚ, floor (fin a) + fin i = fin c ∧ |c| ≤ 2 ^ 100 := by
  have h1 : (⌊a⌋ : ℚ) ≤ a := Int.floor_le a
  have h2 : a < ⌊a⌋ + 1 := Int.lt_floor_add_one a
  have ha' := abs_le.mp ha
  have hi' : 0 ≤ i ∧ i ≤ 1 := by
    rcases hi with h | h <;> rw [h] <;> norm_num
  have hneg : rnd (-(2 : ℚ) ^ 100) = -2 ^ 100 := by
    rw [rnd_neg, rnd_two_pow 100 (by norm_num)]
  have lo : -(2 : ℚ) ^ 100 ≤ (⌊a⌋ : ℚ) + i := by
    have : (2 : ℚ) ^ 100 = 2 ^ 99 + 2 ^ 99 := by norm_num
    linarith [show (1 : ℚ) ≤ 2 ^ 99 by norm_num]
  have hi2 : (⌊a⌋ : ℚ) + i ≤ 2 ^ 100 := by
    have : (2 : ℚ) ^ 100 = 2 ^ 99 + 2 ^ 99 := by norm_num
    linarith [show (1 : ℚ) ≤ 2 ^ 99 by norm_num]
  obtain ⟨e, l, u⟩ := ofRat_between hneg (rnd_two_pow 100 (by norm_num)) lo hi2
    (by norm_num) (by norm_num)
  refine ⟨_, ?_, abs_le.mpr ⟨l, u⟩⟩
  show fin ((⌊a⌋ : ℤ) : ℚ) + fin i = _
  rw [fin_add_fin, e]

/-- The four corner hashes of a finite `p` with components of magnitude at most `2^99`
are finite, for a sine with values in `[-1, 1]`. -/
lemma corners_isFinite (s : ℚ → ℚ) (hs : ∀ q : ℚ, |s q| ≤ 1) (a b : ℚ)
    (ha : |a| ≤ 2 ^ 99) (hb : |b| ≤ 2 ^ 99) :
    IsFinite (hash s (vfloor ⟨fin a, fin b⟩ + ⟨lit 0.0, lit 0.0⟩)) ∧
    IsFinite (hash s (vfloor ⟨fin a, fin b⟩ + ⟨lit 1.0, lit 0.0⟩)) ∧
    IsFinite (hash s (vfloor ⟨fin a, fin b⟩ + ⟨lit 0.0, lit 1.0⟩)) ∧
    IsFinite (hash s (vfloor ⟨fin a, fin b⟩ + ⟨lit 1.0, lit 1.0⟩)) := by
  have key : ∀ i j : ℚ, (i = 0 ∨ i = 1) → (j = 0 ∨ j = 1) →
      IsFinite (hash s (vfloor ⟨fin a, fin b⟩ + ⟨fin i, fin j⟩)) := by
    intro i j hi hj
    obtain ⟨c1, e1, b1⟩ := corner_coord a i ha hi
    obtain ⟨c2, e2, b2⟩ := corner_coord b j hb hj
    have hv : vfloor ⟨fin a, fin b⟩ + ⟨fin i, fin j⟩ = (⟨fin c1, fin c2⟩ : vec2 F32) := by
      show (⟨floor (fin a) + fin i, floor (fin b) + fin j⟩ : vec2 F32) = _
      rw [e1, e2]
    rw [hv]
    obtain ⟨r, hr, _⟩ := hash_fin s hs ⟨fin c1, fin c2⟩ (dot_isFinite b1 b2)
    rw [hr]
    exact isFinite_fin r
  rw [lit_zero, lit_one]
  exact ⟨key 0 0 (Or.inl rfl) (Or.inl rfl), key 1 0 (Or.inr rfl) (Or.inl rfl),
    key 0 1 (Or.inl rfl) (Or.inr rfl), key 1 1 (Or.inr rfl) (Or.inr rfl)⟩

/-- Witness of C6, amended, at `p = (5/2, -3/4)` with the function `q / (1 + q^2)` in
the place of the sine. -/
theorem noise_range_of_finite_corners_witness :
    ∃ r : ℚ, noise (fun q => q / (1 + q ^ 2)) ⟨fin (5 / 2), fin (-3 / 4)⟩ = fin r ∧
      0 ≤ r ∧ r ≤ 1 := by
  have h := corners_isFinite (fun q => q / (1 + q ^ 2)) abs_div_one_add_sq_le (5 / 2) (-3 / 4)
    (by rw [abs_le]; constructor <;> norm_num) (by rw [abs_le]; constructor <;> norm_num)
  exact noise_range_of_finite_corners (fun q => q / (1 + q ^ 2)) (5 / 2) (-3 / 4)
    h.1 h.2.1 h.2.2.1 h.2.2.2

/-- Counterexample to C16 as stated, in binary32: at the finite `p = (2^127, 2^127)`
the corner hash is NaN and `noise(p)` is NaN, which lies between no two values; and the
blend itself leaves the range of its end values: `mix(0.771484375, 0x1.801d84p-6, 1)` is
`0x1.801d8p-6`, below both. -/
theorem noise_bilinear_counterexample :
    (∀ s : ℚ → ℚ, noise s ⟨fin (2 ^ 127), fin (2 ^ 127)⟩ = nan) ∧
    rnd (395 / 512) = 395 / 512 ∧ rnd (6293345 / 268435456) = 6293345 / 268435456 ∧
    mix (fin (395 / 512)) (fin (6293345 / 268435456)) (fin 1) = fin (196667 / 8388608) ∧
    (196667 / 8388608 : ℚ) < min (395 / 512) (6293345 / 268435456) := by
  have ha : rnd (395 / 512) = 395 / 512 := by
    simpa using rnd_dyadic 395 9 (by norm_num) (by norm_num)
  have hb : rnd (6293345 / 268435456) = 6293345 / 268435456 := by
    simpa using rnd_dyadic 6293345 28 (by norm_num) (by norm_num)
  have hD : rnd (6293345 / 268435456 - 395 / 512) = -(6275013 / 8388608) := by
    have e : (6293345 / 268435456 - 395 / 512 : ℚ) = -(200800415 / 268435456) := by norm_num
    rw [e, rnd_neg, rnd_eval (-1) 12550026 (by norm_num) (by norm_num) (by norm_num)
      (by norm_num) (by norm_num)]
    norm_num
  have hP : rnd (-(6275013 / 8388608) * 1) = -(6275013 / 8388608) := by
    have e : (-(6275013 / 8388608) * 1 : ℚ) = ((-6275013 : ℤ) : ℚ) / 2 ^ 23 := by norm_num
    rw [e, rnd_dyadic (-6275013) 23 (by norm_num) (by norm_num)]
    norm_num
  have hM : rnd (395 / 512 + -(6275013 / 8388608)) = 196667 / 8388608 := by
    have e : (395 / 512 + -(6275013 / 8388608) : ℚ) = ((196667 : ℤ) : ℚ) / 2 ^ 23 := by
      norm_num
    rw [e, rnd_dyadic 196667 23 (by norm_num) (by norm_num)]
    norm_num
  refine ⟨fun s => noise_nan_of_big s (2 ^ 127) (Or.inr rfl), ha, hb, ?_, ?_⟩
  · show fin (395 / 512) + (fin (6293345 / 268435456) - fin (395 / 512)) * fin 1 = _
    rw [fin_sub_fin, ofRat_eval hD (by norm_num) (by norm_num), fin_mul_fin,
      ofRat_eval hP (by norm_num) (by norm_num), fin_add_fin,
      ofRat_eval hM (by norm_num) (by norm_num)]
  · rw [lt_min_iff]; constructor <;> norm_num

/-- C16, amended: in binary32, at a finite `p` whose four corner hashes are finite,
`noise(p)` is the bilinear blend `mix(mix(h00, h10, u.x), mix(h01, h11, u.x), u.y)` of
the corner hashes with `mix(a,b,t) = a + t*(b−a)` and `u` the weights of `fract(p)`, and
it lies within `2^-22` of the range of the four corner hashes. -/
theorem noise_bilinear_binary32 (s : ℚ → ℚ) (a b : ℚ)
    (c00 : IsFinite (hash s (vfloor ⟨fin a, fin b⟩ + ⟨lit 0.0, lit 0.0⟩)))
    (c10 : IsFinite (hash s (vfloor ⟨fin a, fin b⟩ + ⟨lit 1.0, lit 0.0⟩)))
    (c01 : IsFinite (hash s (vfloor ⟨fin a, fin b⟩ + ⟨lit 0.0, lit 1.0⟩)))
    (c11 : IsFinite (hash s (vfloor ⟨fin a, fin b⟩ + ⟨lit 1.0, lit 1.0⟩))) :
    (∀ x y t : F32, mix x y t = x + t * (y - x)) ∧
    ∃ h00 h10 h01 h11 r : ℚ,
      hash s (vfloor ⟨fin a, fin b⟩ + ⟨lit 0.0, lit 0.0⟩) = fin h00 ∧
      hash s (vfloor ⟨fin a, fin b⟩ + ⟨lit 1.0, lit 0.0⟩) = fin h10 ∧
      hash s (vfloor ⟨fin a, fin b⟩ + ⟨lit 0.0, lit 1.0⟩) = fin h01 ∧
      hash s (vfloor ⟨fin a, fin b⟩ + ⟨lit 1.0, lit 1.0⟩) = fin h11 ∧
      noise s ⟨fin a, fin b⟩ =
        mix (mix (fin h00) (fin h10) (smoothstep_weight (fract (fin a))))
            (mix (fin h01) (fin h11) (smoothstep_weight (fract (fin a))))
            (smoothstep_weight (fract (fin b))) ∧
      noise s ⟨fin a, fin b⟩ = fin r ∧
      min (min h00 h10) (min h01 h11) - 1 / 2 ^ 22 ≤ r ∧
      r ≤ max (max h00 h10) (max h01 h11) + 1 / 2 ^ 22 := by
  refine ⟨fun x y t => ?_, ?_⟩
  · show x + (y - x) * t = x + t * (y - x)
    rw [mul_comm']
  obtain ⟨h00, e00⟩ := exists_of_isFinite c00
  obtain ⟨h10, e10⟩ := exists_of_isFinite c10
  obtain ⟨h01, e01⟩ := exists_of_isFinite c01
  obtain ⟨h11, e11⟩ := exists_of_isFinite c11
  obtain ⟨r, hr, _, _, lo, hi⟩ := noise_core s a b h00 h10 h01 h11 e00 e10 e01 e11
  refine ⟨h00, h10, h01, h11, r, e00, e10, e01, e11, ?_, hr, lo, hi⟩
  rw [noise_unfold]
  show mix (mix (hash s (vfloor ⟨fin a, fin b⟩ + ⟨lit 0.0, lit 0.0⟩))
                (hash s (vfloor ⟨fin a, fin b⟩ + ⟨lit 1.0, lit 0.0⟩))
                (smoothstep_weight (fract (fin a))))
           (mix (hash s (vfloor ⟨fin a, fin b⟩ + ⟨lit 0.0, lit 1.0⟩))
                (hash s (vfloor ⟨fin a, fin b⟩ + ⟨lit 1.0, lit 1.0⟩))
                (smoothstep_weight (fract (fin a))))
           (smoothstep_weight (fract (fin b))) = _
  rw [e00, e10, e01, e11]

/-- Witness of C16, amended, at `p = (-7/4, 9/2)` with the function `q / (1 + q^2)` in
the place of the sine. -/
theorem noise_bilinear_binary32_witness :
    ∃ h00 h10 h01 h11 r : ℚ,
      hash (fun q => q / (1 + q ^ 2))
        (vfloor ⟨fin (-7 / 4), fin (9 / 2)⟩ + ⟨lit 0.0, lit 0.0⟩) = fin h00 ∧
      hash (fun q => q / (1 + q ^ 2))
        (vfloor ⟨fin (-7 / 4), fin (9 / 2)⟩ + ⟨lit 1.0, lit 0.0⟩) = fin h10 ∧
      hash (fun q => q / (1 + q ^ 2))
        (vfloor ⟨fin (-7 / 4), fin (9 / 2)⟩ + ⟨lit 0.0, lit 1.0⟩) = fin h01 ∧
      hash (fun q => q / (1 + q ^ 2))
        (vfloor ⟨fin (-7 / 4), fin (9 / 2)⟩ + ⟨lit 1.0, lit 1.0⟩) = fin h11 ∧
      noise (fun q => q / (1 + q ^ 2)) ⟨fin (-7 / 4), fin (9 / 2)⟩ =
        mix (mix (fin h00) (fin h10) (smoothstep_weight (fract (fin (-7 / 4)))))
            (mix (fin h01) (fin h11) (smoothstep_weight (fract (fin (-7 / 4)))))
            (smoothstep_weight (fract (fin (9 / 2)))) ∧
      noise (fun q => q / (1 + q ^ 2)) ⟨fin (-7 / 4), fin (9 / 2)⟩ = fin r ∧
      min (min h00 h10) (min h01 h11) - 1 / 2 ^ 22 ≤ r ∧
      r ≤ max (max h00 h10) (max h01 h11) + 1 / 2 ^ 22 := by
  have h := corners_isFinite (fun q => q / (1 + q ^ 2)) abs_div_one_add_sq_le (-7 / 4) (9 / 2)
    (by rw [abs_le]; constructor <;> norm_num) (by rw [abs_le]; constructor <;> norm_num)
  exact (noise_bilinear_binary32 (fun q => q / (1 + q ^ 2)) (-7 / 4) (9 / 2)
    h.1 h.2.1 h.2.2.1 h.2.2.2).2

end F32

end SumiCore
